import Mathlib

set_option maxRecDepth 40000

/-!
Verification of tgcryptfs storage-engine components against their
natural-language specification, by shallow embedding of the Rust source
into Lean 4.

Conventions used throughout this file:
* Bytes are modelled as `Nat` (values below 256 where it matters).
* Rust `HashMap` / `HashSet` state is modelled by functions into `Option`
  or by lists with set semantics; only membership, never iteration order,
  is relied on in theorems (Rust hash iteration order is unspecified).
* The BLAKE3 content hash is an arbitrary parameter `H`; no claim below
  depends on properties of the hash function.
* Fallible Rust functions returning `Result` become `Except` / `Option`.
-/

namespace TgCryptFs

/-! ## Chunker (src/chunk/chunker.rs)

`Chunk::new` stores the data, its length, the file offset and the BLAKE3
content hash (the chunk id equals the content hash).  The hash function is
a parameter `H`. -/

structure Chunk where
  id : Nat
  size : Nat
  offset : Nat
  contentHash : Nat
  data : List Nat
deriving DecidableEq, Repr

/-- Translation of `Chunk::new` (src/chunk/chunker.rs): the id is the content
hash of the data. -/
def Chunk.new (H : List Nat → Nat) (data : List Nat) (offset : Nat) : Chunk :=
  { id := H data, size := data.length, offset := offset,
    contentHash := H data, data := data }

/-- Loop body of `Chunker::chunk_data`: Rust `data.chunks(c)` walks the slice
taking `c` bytes at a time while accumulating the running offset.  The
`c = 0` guard only serves termination; Rust `chunks(0)` panics and the
claims assume `c ≥ 1`. -/
def chunkDataGo (H : List Nat → Nat) (c : Nat) (data : List Nat) (offset : Nat) :
    List Chunk :=
  if _h : data = [] ∨ c = 0 then []
  else
    Chunk.new H (data.take c) offset ::
      chunkDataGo H c (data.drop c) (offset + (data.take c).length)
termination_by data.length
decreasing_by
  simp only [List.length_drop]
  have h1 : data ≠ [] := fun hd => _h (Or.inl hd)
  have h2 : c ≠ 0 := fun hc => _h (Or.inr hc)
  have : 0 < data.length := List.length_pos.mpr h1
  omega

/-- Translation of `Chunker::chunk_data` (src/chunk/chunker.rs lines 85-95). -/
def Chunker.chunk_data (H : List Nat → Nat) (c : Nat) (data : List Nat) :
    List Chunk :=
  chunkDataGo H c data 0

/-- Translation of `Chunker::reassemble` (src/chunk/chunker.rs lines 129-142):
sort the chunks by offset (Rust uses a stable `sort_by_key`; insertion sort
is stable as well) and concatenate their data. -/
def Chunker.reassemble (chunks : List Chunk) : List Nat :=
  ((chunks.insertionSort fun a b => a.offset ≤ b.offset).map (fun ch => ch.data)).flatten

theorem chunkDataGo_nil (H : List Nat → Nat) (c : Nat) (off : Nat) :
    chunkDataGo H c [] off = [] := by
  rw [chunkDataGo]
  simp

theorem chunkDataGo_cons (H : List Nat → Nat) (c : Nat) (data : List Nat)
    (off : Nat) (hd : data ≠ []) (hc : c ≠ 0) :
    chunkDataGo H c data off =
      Chunk.new H (data.take c) off ::
        chunkDataGo H c (data.drop c) (off + (data.take c).length) := by
  rw [chunkDataGo]
  simp [hd, hc]

/-- Concatenating the data of the produced chunks gives back the input. -/
theorem chunkDataGo_join (H : List Nat → Nat) (c : Nat) (hc : c ≠ 0) :
    ∀ (data : List Nat) (off : Nat),
      ((chunkDataGo H c data off).map (fun ch => ch.data)).flatten = data := by
  have key : ∀ (n : Nat) (data : List Nat), data.length ≤ n → ∀ off,
      ((chunkDataGo H c data off).map (fun ch => ch.data)).flatten = data := by
    intro n
    induction n with
    | zero =>
      intro data hlen off
      have hd : data = [] := List.length_eq_zero.mp (Nat.le_zero.mp hlen)
      subst hd; simp [chunkDataGo_nil]
    | succ n ih =>
      intro data hlen off
      by_cases hd : data = []
      · subst hd; simp [chunkDataGo_nil]
      · rw [chunkDataGo_cons H c data off hd hc]
        simp only [List.map_cons, List.flatten, Chunk.new]
        have hpos : 0 < data.length := List.length_pos.mpr hd
        have hdec : (data.drop c).length ≤ n := by
          simp only [List.length_drop]
          omega
        rw [ih (data.drop c) hdec]
        exact List.take_append_drop c data
  intro data off
  exact key data.length data le_rfl off

instance : Inhabited Chunk := ⟨⟨0, 0, 0, 0, []⟩⟩

/-- Positional characterization of the produced chunks: the i-th chunk holds
the slice of the input starting at byte `c * i`, with offset shifted by the
running offset. -/
theorem chunkDataGo_getD (H : List Nat → Nat) (c : Nat) (hc : c ≠ 0) :
    ∀ (data : List Nat) (off : Nat) (i : Nat),
      i < (chunkDataGo H c data off).length →
      (chunkDataGo H c data off).getD i default =
        Chunk.new H ((data.drop (c * i)).take c) (off + c * i) := by
  have key : ∀ (n : Nat) (data : List Nat), data.length ≤ n → ∀ off i,
      i < (chunkDataGo H c data off).length →
      (chunkDataGo H c data off).getD i default =
        Chunk.new H ((data.drop (c * i)).take c) (off + c * i) := by
    intro n
    induction n with
    | zero =>
      intro data hlen off i h
      have hd : data = [] := List.length_eq_zero.mp (Nat.le_zero.mp hlen)
      subst hd
      rw [chunkDataGo_nil] at h
      exact absurd h (by simp)
    | succ n ih =>
      intro data hlen off i h
      by_cases hd : data = []
      · subst hd
        rw [chunkDataGo_nil] at h
        exact absurd h (by simp)
      · have hpos : 0 < data.length := List.length_pos.mpr hd
        have hdec : (data.drop c).length ≤ n := by
          simp only [List.length_drop]; omega
        rw [chunkDataGo_cons H c data off hd hc] at h ⊢
        match i with
        | 0 => simp
        | i + 1 =>
          simp only [List.getD_cons_succ, List.length_cons,
            Nat.succ_lt_succ_iff] at h ⊢
          rw [ih (data.drop c) hdec _ _ h]
          congr 1
          · rw [List.drop_drop]
            congr 1
            ring_nf
          · have htk : (data.take c).length = c := by
              rw [List.length_take]
              by_cases hlc : c ≤ data.length
              · omega
              · exfalso
                push_neg at hlc
                have hdrop : data.drop c = [] := by
                  apply List.drop_eq_nil_of_le
                  omega
                rw [hdrop, chunkDataGo_nil] at h
                exact absurd h (by simp)
            rw [htk]
            ring
  intro data off i h
  exact key data.length data le_rfl off i h

/-- Bounds on the number of produced chunks: `c * (n - 1) < len ≤ c * n`
for nonempty input, i.e. `n = ceil(len / c)`. -/
theorem chunkDataGo_length_bounds (H : List Nat → Nat) (c : Nat) (hc : c ≠ 0) :
    ∀ (data : List Nat) (off : Nat), data ≠ [] →
      c * ((chunkDataGo H c data off).length - 1) < data.length ∧
        data.length ≤ c * (chunkDataGo H c data off).length := by
  have key : ∀ (n : Nat) (data : List Nat), data.length ≤ n → ∀ off, data ≠ [] →
      c * ((chunkDataGo H c data off).length - 1) < data.length ∧
        data.length ≤ c * (chunkDataGo H c data off).length := by
    intro n
    induction n with
    | zero =>
      intro data hlen off hd
      exact absurd (List.length_eq_zero.mp (Nat.le_zero.mp hlen)) hd
    | succ n ih =>
      intro data hlen off hd
      have hpos : 0 < data.length := List.length_pos.mpr hd
      rw [chunkDataGo_cons H c data off hd hc]
      by_cases hrest : data.drop c = []
      · rw [hrest, chunkDataGo_nil]
        have : data.length ≤ c := by
          have := List.length_drop c data  -- drop length = len - c
          rw [hrest] at this
          simp at this
          omega
        simp only [List.length_cons, List.length_nil]
        constructor <;> omega
      · have hlc : c < data.length := by
          by_contra hle
          push_neg at hle
          exact hrest (List.drop_eq_nil_of_le hle)
        have hdec : (data.drop c).length ≤ n := by
          simp only [List.length_drop]; omega
        obtain ⟨ih1, ih2⟩ := ih (data.drop c) hdec (off + (data.take c).length) hrest
        rw [List.length_drop] at ih1 ih2
        have hrestpos : 0 < (chunkDataGo H c (data.drop c)
            (off + (data.take c).length)).length := by
          rw [List.length_pos]
          intro hnil
          rw [hnil] at ih2
          simp at ih2
          omega
        simp only [List.length_cons]
        constructor
        · have : c * ((chunkDataGo H c (data.drop c)
              (off + (data.take c).length)).length - 1) < data.length - c := ih1
          have hmul : c * ((chunkDataGo H c (data.drop c)
              (off + (data.take c).length)).length + 1 - 1) =
              c * ((chunkDataGo H c (data.drop c)
                (off + (data.take c).length)).length - 1) + c := by
            rw [Nat.add_sub_cancel]
            have hL := hrestpos
            set L := (chunkDataGo H c (data.drop c)
              (off + (data.take c).length)).length with hLdef
            calc c * L = c * (L - 1 + 1) := by rw [Nat.sub_add_cancel hL]
            _ = c * (L - 1) + c := by ring
          omega
        · have hmul : c * ((chunkDataGo H c (data.drop c)
              (off + (data.take c).length)).length + 1) =
              c * (chunkDataGo H c (data.drop c)
                (off + (data.take c).length)).length + c := by ring
          omega
  intro data off hd
  exact key data.length data le_rfl off hd

instance : IsTotal Chunk (fun a b => a.offset ≤ b.offset) :=
  ⟨fun a b => Nat.le_total a.offset b.offset⟩

instance : IsTrans Chunk (fun a b => a.offset ≤ b.offset) :=
  ⟨fun _ _ _ h1 h2 => Nat.le_trans h1 h2⟩

instance : IsAntisymm Chunk (fun a b => a.offset < b.offset) :=
  ⟨fun _ _ h1 h2 => absurd (Nat.lt_trans h1 h2) (Nat.lt_irrefl _)⟩

/-- The chunks produced by `chunk_data` have strictly increasing offsets. -/
theorem chunk_data_offsets_strict (H : List Nat → Nat) (c : Nat) (hc : c ≠ 0)
    (x : List Nat) :
    (Chunker.chunk_data H c x).Pairwise (fun a b => a.offset < b.offset) := by
  rw [List.pairwise_iff_getElem]
  intro i j hi hj hij
  have hi' : i < (chunkDataGo H c x 0).length := hi
  have hj' : j < (chunkDataGo H c x 0).length := hj
  have gi := chunkDataGo_getD H c hc x 0 i hi'
  have gj := chunkDataGo_getD H c hc x 0 j hj'
  rw [List.getD_eq_getElem _ default hi'] at gi
  rw [List.getD_eq_getElem _ default hj'] at gj
  show ((chunkDataGo H c x 0)[i]).offset < ((chunkDataGo H c x 0)[j]).offset
  rw [gi, gj]
  simp only [Chunk.new, Nat.zero_add]
  exact (Nat.mul_lt_mul_left (Nat.pos_of_ne_zero hc)).mpr hij

/-- Key permutation property: reassembling any permutation of the produced
chunks restores the input. -/
theorem reassemble_perm_chunk_data (H : List Nat → Nat) (c : Nat) (hc : c ≠ 0)
    (x : List Nat) (l : List Chunk) (hl : l.Perm (Chunker.chunk_data H c x)) :
    Chunker.reassemble l = x := by
  have hsortle : List.Pairwise (fun a b => a.offset ≤ b.offset)
      (l.insertionSort fun a b => a.offset ≤ b.offset) :=
    List.sorted_insertionSort _ l
  have hperm : (l.insertionSort fun a b => a.offset ≤ b.offset).Perm
      (Chunker.chunk_data H c x) :=
    (List.perm_insertionSort _ l).trans hl
  have hstrict := chunk_data_offsets_strict H c hc x
  have hnodup : ((Chunker.chunk_data H c x).map (fun ch => ch.offset)).Nodup := by
    rw [List.Nodup, List.pairwise_map]
    exact hstrict.imp (fun h => Nat.ne_of_lt h)
  have hnodup2 : ((l.insertionSort fun a b => a.offset ≤ b.offset).map
      (fun ch => ch.offset)).Nodup :=
    ((hperm.map _).nodup_iff).mpr hnodup
  have hne : (l.insertionSort fun a b => a.offset ≤ b.offset).Pairwise
      (fun a b => a.offset ≠ b.offset) := by
    rw [List.Nodup, List.pairwise_map] at hnodup2
    exact hnodup2
  have hsortlt : (l.insertionSort fun a b => a.offset ≤ b.offset).Pairwise
      (fun a b => a.offset < b.offset) := by
    rw [List.pairwise_iff_getElem] at hsortle hne ⊢
    intro i j hi hj hij
    exact lt_of_le_of_ne (hsortle i j hi hj hij) (hne i j hi hj hij)
  have hsortlt2 : List.Sorted (fun a b : Chunk => a.offset < b.offset)
      (l.insertionSort fun a b => a.offset ≤ b.offset) := hsortlt
  have hstrict2 : List.Sorted (fun a b : Chunk => a.offset < b.offset)
      (Chunker.chunk_data H c x) := hstrict
  have heq : (l.insertionSort fun a b => a.offset ≤ b.offset) =
      Chunker.chunk_data H c x :=
    List.eq_of_perm_of_sorted hperm hsortlt2 hstrict2
  rw [Chunker.reassemble, heq]
  exact chunkDataGo_join H c hc x 0

/-- C2: for every byte sequence x and chunk size c at least 1, reassembling
the chunks produced by chunk_data in any order yields x; every chunk except
possibly the last has exactly c bytes, the final chunk holds the remainder,
and chunk offsets are the consecutive multiples of c. -/
theorem chunker_roundtrip_c2 (H : List Nat → Nat) (c : Nat) (x : List Nat)
    (l : List Chunk) (hc : 1 ≤ c) (hl : l.Perm (Chunker.chunk_data H c x)) :
    Chunker.reassemble l = x ∧
    (∀ i, i < (Chunker.chunk_data H c x).length →
      ((Chunker.chunk_data H c x).getD i default).offset = c * i ∧
      ((Chunker.chunk_data H c x).getD i default).data.length =
        (if i + 1 = (Chunker.chunk_data H c x).length
         then x.length - c * i else c)) := by
  have hc0 : c ≠ 0 := by omega
  refine ⟨reassemble_perm_chunk_data H c hc0 x l hl, ?_⟩
  intro i hi
  have hg := chunkDataGo_getD H c hc0 x 0 i hi
  have hx : x ≠ [] := by
    intro hxe
    subst hxe
    rw [Chunker.chunk_data, chunkDataGo_nil] at hi
    exact absurd hi (by simp)
  obtain ⟨hb1, hb2⟩ := chunkDataGo_length_bounds H c hc0 x 0 hx
  rw [Chunker.chunk_data] at *
  rw [hg]
  simp only [Chunk.new, Nat.zero_add, List.length_take, List.length_drop]
  refine ⟨by simp, ?_⟩
  set n := (chunkDataGo H c x 0).length with hn
  by_cases hlast : i + 1 = n
  · rw [if_pos hlast]
    have hcn : c * n = c * i + c := by
      rw [← hlast]; ring
    omega
  · rw [if_neg hlast]
    have hi1 : i + 1 ≤ n - 1 := by omega
    have hmul : c * (i + 1) ≤ c * (n - 1) := Nat.mul_le_mul_left c hi1
    have hci : c * (i + 1) = c * i + c := by ring
    omega

/-- Witness for C2 at a concrete input: chunking [1,2,3] with c = 2 and
reassembling the chunks in reversed order restores the input. -/
theorem chunker_roundtrip_c2_witness :
    Chunker.reassemble ((Chunker.chunk_data (fun _ => 0) 2 [1, 2, 3]).reverse) =
      [1, 2, 3] :=
  (chunker_roundtrip_c2 (fun _ => 0) 2 [1, 2, 3] _ (by omega)
    (List.reverse_perm _)).1

/-! ## DedupTracker (src/chunk/chunker.rs lines 180-230)

The Rust `HashSet<ChunkId>` is modelled as a list with set semantics
(membership only; no theorem depends on iteration order). -/

structure DedupTracker where
  known_chunks : List Nat
deriving DecidableEq, Repr

def DedupTracker.new : DedupTracker := ⟨[]⟩

/-- Translation of `DedupTracker::is_known`. -/
def DedupTracker.is_known (t : DedupTracker) (chunk_id : Nat) : Bool :=
  t.known_chunks.contains chunk_id

/-- Translation of `DedupTracker::register` (`HashSet::insert`). -/
def DedupTracker.register (t : DedupTracker) (chunk_id : Nat) : DedupTracker :=
  if t.known_chunks.contains chunk_id then t else ⟨chunk_id :: t.known_chunks⟩

/-- Translation of `DedupTracker::filter_new` (src/chunk/chunker.rs lines
215-229): walk the chunks in order; a known id goes to `existing_ids`, an
unknown one is registered and the chunk goes to `new_chunks`.  Returns the
updated tracker together with `(new_chunks, existing_ids)`. -/
def DedupTracker.filter_new (t : DedupTracker) :
    List Chunk → DedupTracker × List Chunk × List Nat
  | [] => (t, [], [])
  | ch :: rest =>
    if t.is_known ch.id then
      let r := DedupTracker.filter_new t rest
      (r.1, r.2.1, ch.id :: r.2.2)
    else
      let r := DedupTracker.filter_new (t.register ch.id) rest
      (r.1, ch :: r.2.1, r.2.2)

theorem register_is_known (t : DedupTracker) (a x : Nat) :
    (t.register a).is_known x = (t.is_known x || x == a) := by
  rw [DedupTracker.register]
  by_cases h : t.known_chunks.contains a
  · rw [if_pos h]
    by_cases hx : x = a
    · subst hx
      simp only [beq_self_eq_true, Bool.or_true]
      rw [DedupTracker.is_known]
      exact h
    · simp [hx]
  · rw [if_neg h]
    simp only [DedupTracker.is_known, List.contains_cons]
    rw [Bool.or_comm]

/-- After `filter_new`, an id is known iff it was known before or occurs in
the batch. -/
theorem filter_new_known (cs : List Chunk) : ∀ (t : DedupTracker) (x : Nat),
    (t.filter_new cs).1.is_known x =
      (t.is_known x || (cs.map (fun ch => ch.id)).contains x) := by
  induction cs with
  | nil => intro t x; simp [DedupTracker.filter_new]
  | cons ch rest ih =>
    intro t x
    rw [DedupTracker.filter_new]
    by_cases h : t.is_known ch.id
    · rw [if_pos h]
      show (t.filter_new rest).1.is_known x = _
      rw [ih t x]
      simp only [List.map_cons, List.contains_cons]
      by_cases hx : x = ch.id
      · subst hx
        simp [h]
      · have : (x == ch.id) = false := by simp [hx]
        rw [this]
        simp
    · rw [if_neg h]
      show ((t.register ch.id).filter_new rest).1.is_known x = _
      rw [ih _ x, register_is_known]
      simp only [List.map_cons, List.contains_cons]
      by_cases hx : x = ch.id
      · subst hx; simp
      · have : (x == ch.id) = false := by simp [hx]
        rw [this]
        simp

theorem filter_new_sublists (cs : List Chunk) : ∀ (t : DedupTracker),
    (t.filter_new cs).2.1.Sublist cs ∧
      (t.filter_new cs).2.2.Sublist (cs.map (fun ch => ch.id)) := by
  induction cs with
  | nil => intro t; simp [DedupTracker.filter_new]
  | cons ch rest ih =>
    intro t
    rw [DedupTracker.filter_new]
    by_cases h : t.is_known ch.id
    · rw [if_pos h]
      refine ⟨(ih t).1.cons ch, ?_⟩
      exact (ih t).2.cons₂ ch.id
    · rw [if_neg h]
      refine ⟨(ih (t.register ch.id)).1.cons₂ ch, ?_⟩
      exact (ih (t.register ch.id)).2.cons ch.id

/-- Positional classification of `filter_new`: the chunk at index i goes to
`new_chunks` iff its id was unknown before the call and does not occur at an
earlier index of the batch; otherwise its id is emitted into
`existing_ids`.  Both outputs keep the input order. -/
theorem filter_new_classification (cs : List Chunk) : ∀ t : DedupTracker,
    (t.filter_new cs).2.1 =
      (((List.range cs.length).zip cs).filter (fun q =>
        !(t.is_known q.2.id) &&
          !(((cs.take q.1).map (fun ch => ch.id)).contains q.2.id))).map
        (fun q => q.2) ∧
    (t.filter_new cs).2.2 =
      (((List.range cs.length).zip cs).filter (fun q =>
        t.is_known q.2.id ||
          ((cs.take q.1).map (fun ch => ch.id)).contains q.2.id)).map
        (fun q => q.2.id) := by
  induction cs with
  | nil => intro t; simp [DedupTracker.filter_new]
  | cons ch rest ih =>
    intro t
    rw [DedupTracker.filter_new]
    by_cases h : t.is_known ch.id
    · rw [if_pos h]
      obtain ⟨ih1, ih2⟩ := ih t
      constructor
      · show (t.filter_new rest).2.1 = _
        simp only [List.length_cons, List.range_succ_eq_map,
          List.zip_cons_cons, List.zip_map_left]
        rw [List.filter_cons_of_neg (by simp [h])]
        rw [List.filter_map, List.map_map, ih1]
        congr 1
        apply List.filter_congr
        intro q _
        simp only [Function.comp_apply, Prod.map_apply, id,
          List.take_succ_cons, List.map_cons, List.contains_cons]
        by_cases hq : q.2.id = ch.id
        · have hk : t.is_known q.2.id = true := by rw [hq]; exact h
          simp [hk]
        · simp [hq]
      · show ch.id :: (t.filter_new rest).2.2 = _
        simp only [List.length_cons, List.range_succ_eq_map,
          List.zip_cons_cons, List.zip_map_left]
        rw [List.filter_cons_of_pos (by simp [h])]
        rw [List.map_cons, List.filter_map, List.map_map, ih2]
        congr 2
        apply List.filter_congr
        intro q _
        simp only [Function.comp_apply, Prod.map_apply, id,
          List.take_succ_cons, List.map_cons, List.contains_cons]
        by_cases hq : q.2.id = ch.id
        · have hk : t.is_known q.2.id = true := by rw [hq]; exact h
          simp [hk]
        · simp [hq]
    · rw [if_neg h]
      have hb : t.is_known ch.id = false := by
        rw [Bool.eq_false_iff]; exact h
      obtain ⟨ih1, ih2⟩ := ih (t.register ch.id)
      constructor
      · show ch :: ((t.register ch.id).filter_new rest).2.1 = _
        simp only [List.length_cons, List.range_succ_eq_map,
          List.zip_cons_cons, List.zip_map_left]
        rw [List.filter_cons_of_pos (by simp [hb])]
        rw [List.map_cons, List.filter_map, List.map_map, ih1]
        congr 2
        apply List.filter_congr
        intro q _
        simp only [Function.comp_apply, Prod.map_apply, id,
          List.take_succ_cons, List.map_cons, List.contains_cons]
        rw [register_is_known]
        by_cases hq : q.2.id = ch.id
        · simp [hq]
        · have hbe : (q.2.id == ch.id) = false := by simp [hq]
          simp [hbe, hq]
      · show ((t.register ch.id).filter_new rest).2.2 = _
        simp only [List.length_cons, List.range_succ_eq_map,
          List.zip_cons_cons, List.zip_map_left]
        rw [List.filter_cons_of_neg (by simp [hb])]
        rw [List.filter_map, List.map_map, ih2]
        congr 1
        apply List.filter_congr
        intro q _
        simp only [Function.comp_apply, Prod.map_apply, id,
          List.take_succ_cons, List.map_cons, List.contains_cons]
        rw [register_is_known]
        by_cases hq : q.2.id = ch.id
        · simp [hq]
        · have hbe : (q.2.id == ch.id) = false := by simp [hq]
          simp [hbe, hq]

theorem filter_new_lengths (cs : List Chunk) : ∀ (t : DedupTracker),
    (t.filter_new cs).2.1.length + (t.filter_new cs).2.2.length = cs.length := by
  induction cs with
  | nil => intro t; simp [DedupTracker.filter_new]
  | cons ch rest ih =>
    intro t
    rw [DedupTracker.filter_new]
    by_cases h : t.is_known ch.id
    · rw [if_pos h]
      show (t.filter_new rest).2.1.length +
        ((t.filter_new rest).2.2.length + 1) = rest.length + 1
      rw [← Nat.add_assoc, ih t]
    · rw [if_neg h]
      show (((t.register ch.id).filter_new rest).2.1.length + 1) +
        ((t.register ch.id).filter_new rest).2.2.length = rest.length + 1
      rw [Nat.add_right_comm, ih (t.register ch.id)]

/-- C10: DedupTracker::filter_new partitions its input order-preservingly:
a chunk goes to new_chunks iff its id was unknown before the call and does
not occur earlier in the batch (an in-batch duplicate is classified as
existing); every other chunk contributes its id to existing_ids; the two
output lengths sum to the input length; and afterwards every input id is
known to the tracker (and knowledge of other ids is unchanged). -/
theorem dedup_filter_new_c10 (t : DedupTracker) (cs : List Chunk) :
    (t.filter_new cs).2.1.Sublist cs ∧
    (t.filter_new cs).2.2.Sublist (cs.map fun ch => ch.id) ∧
    (t.filter_new cs).2.1 =
      (((List.range cs.length).zip cs).filter (fun q =>
        !(t.is_known q.2.id) &&
          !(((cs.take q.1).map (fun ch => ch.id)).contains q.2.id))).map
        (fun q => q.2) ∧
    (t.filter_new cs).2.2 =
      (((List.range cs.length).zip cs).filter (fun q =>
        t.is_known q.2.id ||
          ((cs.take q.1).map (fun ch => ch.id)).contains q.2.id)).map
        (fun q => q.2.id) ∧
    (t.filter_new cs).2.1.length + (t.filter_new cs).2.2.length = cs.length ∧
    ∀ x, (t.filter_new cs).1.is_known x =
      (t.is_known x || (cs.map fun ch => ch.id).contains x) :=
  ⟨(filter_new_sublists cs t).1, (filter_new_sublists cs t).2,
    (filter_new_classification cs t).1, (filter_new_classification cs t).2,
    filter_new_lengths cs t, filter_new_known cs t⟩

/-! ## Erasure encoder parameters and StripeManager (src/raid/stripe.rs)

`src/raid/erasure.rs` is absent from src/; only the parameter bookkeeping
of the `Encoder` is needed for the placement claims. -/

/-- Modelled from the spec: the `Encoder` of the missing src/raid/erasure.rs.
Spec section 4.3 prescribes Reed-Solomon over a small field with parameters
`(K, N)` where `1 <= K < N` (construction fails otherwise; the source tests
confirm `Encoder::new(0,3)` and `Encoder::new(3,3)` fail).  The model also
caps `N` at 257, the size of the prime field used below in place of
GF(2^8); any Reed-Solomon code needs `N` distinct evaluation points. -/
structure Encoder where
  data_shards : Nat
  total_shards : Nat
deriving DecidableEq, Repr

/-- Modelled from the spec: `Encoder::new` accepts exactly `1 ≤ K < N` (with
the field-size cap on `N` discussed above). -/
def Encoder.new (data_shards total_shards : Nat) : Option Encoder :=
  if 1 ≤ data_shards ∧ data_shards < total_shards ∧ total_shards ≤ 257 then
    some ⟨data_shards, total_shards⟩
  else none

structure StripeManager where
  encoder : Encoder
  num_accounts : Nat
deriving DecidableEq, Repr

/-- Translation of `StripeManager::new` (src/raid/stripe.rs lines 91-108):
fails when `num_accounts = 0`, when `num_accounts < total_shards`, or when
the encoder construction fails.  The Rust `Result` error payloads are not
needed by the claims, so `Option` is used. -/
def StripeManager.new (data_shards total_shards num_accounts : Nat) :
    Option StripeManager :=
  if num_accounts = 0 then none
  else if num_accounts < total_shards then none
  else (Encoder.new data_shards total_shards).map
    (fun e => ⟨e, num_accounts⟩)

/-- Translation of `StripeManager::get_assignments` (src/raid/stripe.rs lines
156-186): `rotation = stripe_index % total_shards` and block `b` is pushed
as `((b + rotation) % num_accounts) as u8`; the `u8` cast truncates modulo
256, which is modelled explicitly. -/
def StripeManager.get_assignments (m : StripeManager) (stripe_index : Nat) :
    List Nat :=
  (List.range m.encoder.total_shards).map
    (fun block_idx =>
      ((block_idx + stripe_index % m.encoder.total_shards) % m.num_accounts) % 256)

theorem stripe_manager_new_shape (k n a : Nat) (m : StripeManager)
    (hm : StripeManager.new k n a = some m) :
    m.encoder.data_shards = k ∧ m.encoder.total_shards = n ∧
      m.num_accounts = a ∧ 1 ≤ k ∧ k < n ∧ n ≤ 257 ∧ 1 ≤ a ∧ n ≤ a := by
  rw [StripeManager.new] at hm
  by_cases h0 : a = 0
  · rw [if_pos h0] at hm; exact absurd hm (by simp)
  · rw [if_neg h0] at hm
    by_cases h1 : a < n
    · rw [if_pos h1] at hm; exact absurd hm (by simp)
    · rw [if_neg h1] at hm
      rw [Encoder.new] at hm
      by_cases h2 : 1 ≤ k ∧ k < n ∧ n ≤ 257
      · rw [if_pos h2] at hm
        have hm2 : (⟨⟨k, n⟩, a⟩ : StripeManager) = m := Option.some.inj hm
        subst hm2
        refine ⟨rfl, rfl, rfl, h2.1, h2.2.1, h2.2.2, ?_, ?_⟩ <;> omega
      · rw [if_neg h2] at hm
        exact absurd hm (by simp)

/-- Rotated placement over at most 256 accounts is injective on a window of
`n ≤ a` consecutive block indices. -/
theorem rotate_mod_nodup (n a r : Nat) (h1 : 1 ≤ a) (h2 : n ≤ a)
    (ha : a ≤ 256) :
    ((List.range n).map (fun b => ((b + r) % a) % 256)).Nodup := by
  apply List.Nodup.map_on _ (List.nodup_range n)
  intro b1 hb1 b2 hb2 heq
  rw [List.mem_range] at hb1 hb2
  have hlt1 : (b1 + r) % a < a := Nat.mod_lt _ (by omega)
  have hlt2 : (b2 + r) % a < a := Nat.mod_lt _ (by omega)
  have e1 : ((b1 + r) % a) % 256 = (b1 + r) % a := Nat.mod_eq_of_lt (by omega)
  have e2 : ((b2 + r) % a) % 256 = (b2 + r) % a := Nat.mod_eq_of_lt (by omega)
  rw [e1, e2] at heq
  have hmodeq : Nat.ModEq a (b1 + r) (b2 + r) := heq
  have hmodeq2 : Nat.ModEq a b1 b2 :=
    Nat.ModEq.add_right_cancel (Nat.ModEq.refl r) hmodeq
  have e3 : b1 % a = b1 := Nat.mod_eq_of_lt (by omega)
  have e4 : b2 % a = b2 := Nat.mod_eq_of_lt (by omega)
  rw [Nat.ModEq, e3, e4] at hmodeq2
  exact hmodeq2

/-- C3 (amended with the byte-truncation bound `num_accounts ≤ 256`): for
every successfully constructed StripeManager — construction fails unless
`num_accounts ≥ N` and `num_accounts > 0` — and every stripe index, the N
assignments returned by get_assignments are pairwise distinct. -/
theorem stripe_assignments_distinct_c3 (k n a : Nat) (m : StripeManager)
    (hm : StripeManager.new k n a = some m) (ha : a ≤ 256) (i : Nat) :
    1 ≤ a ∧ n ≤ a ∧ (m.get_assignments i).length = n ∧
      (m.get_assignments i).Nodup := by
  obtain ⟨-, hn, hA, -, hkn, -, h1, h2⟩ := stripe_manager_new_shape k n a m hm
  refine ⟨h1, h2, ?_, ?_⟩
  · rw [StripeManager.get_assignments, hn, List.length_map, List.length_range]
  · rw [StripeManager.get_assignments, hn, hA]
    exact rotate_mod_nodup n a (i % n) h1 h2 ha

/-- Witness for C3 at a concrete input: the manager (K=2, N=3, accounts=3)
yields pairwise distinct assignments for stripe 5. -/
theorem stripe_assignments_distinct_c3_witness :
    1 ≤ 3 ∧ 3 ≤ 3 ∧
      ((StripeManager.mk ⟨2, 3⟩ 3).get_assignments 5).length = 3 ∧
      ((StripeManager.mk ⟨2, 3⟩ 3).get_assignments 5).Nodup :=
  stripe_assignments_distinct_c3 2 3 3 _ (by decide) (by decide) 5

/-- Counterexample to C3 as stated: with 257 accounts (which
`StripeManager::new` accepts for N = 130) the `as u8` cast makes blocks 128
and 129 of stripe 128 collide on account 0. -/
theorem stripe_assignments_distinct_c3_counterexample :
    (StripeManager.new 129 130 257).map
        (fun m => decide (m.get_assignments 128).Nodup) = some false ∧
      (StripeManager.new 129 130 257).map
        (fun m => ((m.get_assignments 128).getD 128 999,
          (m.get_assignments 128).getD 129 999)) = some (0, 0) := by
  constructor <;> decide

/-- C4 (amended): block `b` of stripe `i` is assigned to account
`((b + (i mod N)) mod num_accounts) mod 256` — the code reduces the stripe
index modulo N before rotating, and stores the account id as a byte. -/
theorem stripe_assignment_formula_c4 (k n a : Nat) (m : StripeManager)
    (hm : StripeManager.new k n a = some m) (i b : Nat) (hb : b < n) :
    (m.get_assignments i).getD b 0 = ((b + i % n) % a) % 256 := by
  obtain ⟨-, hn, hA, -, -, -, -, -⟩ := stripe_manager_new_shape k n a m hm
  rw [StripeManager.get_assignments, hn, hA]
  have hb' : b < (List.range n).length := by
    rw [List.length_range]; exact hb
  have hb'' : b < ((List.range n).map
      (fun block_idx => ((block_idx + i % n) % a) % 256)).length := by
    rw [List.length_map]; exact hb'
  rw [List.getD_eq_getElem _ _ hb'', List.getElem_map, List.getElem_range]

/-- Witness for C4 at a concrete input. -/
theorem stripe_assignment_formula_c4_witness :
    ((StripeManager.mk ⟨2, 3⟩ 4).get_assignments 3).getD 0 0 =
      ((0 + 3 % 3) % 4) % 256 :=
  stripe_assignment_formula_c4 2 3 4 _ (by decide) 3 0 (by decide)

/-- Counterexample to C4 as stated: for the manager (K=2, N=3, accounts=4)
and stripe index 3, block 0 is assigned to account 0, while the claimed
formula `(b + i) mod num_accounts` gives 3. -/
theorem stripe_assignment_formula_c4_counterexample :
    (StripeManager.new 2 3 4).map
        (fun m => (m.get_assignments 3).getD 0 999) = some 0 ∧
      (0 + 3) % 4 = 3 ∧ (0 : Nat) ≠ 3 := by
  refine ⟨by decide, by decide, by decide⟩

/-! ## Metadata: chunk manifests and the VersionManager
(src/chunk/mod.rs, src/metadata/version.rs) -/

/-- Translation of `ChunkRef` (src/chunk/mod.rs lines 16-29). -/
structure ChunkRef where
  id : String
  size : Nat
  message_id : Int
  offset : Nat
  original_size : Nat
  compressed : Bool
deriving DecidableEq, Repr

/-- Translation of `ChunkManifest` (src/chunk/mod.rs lines 33-42). -/
structure ChunkManifest where
  version : Nat
  total_size : Nat
  chunks : List ChunkRef
  file_hash : String
deriving DecidableEq, Repr

/-- Translation of `FileVersion` (src/metadata/version.rs lines 14-25).  The
wall-clock field `created: SystemTime` is dropped: no claim mentions it and
real time is outside the embedding. -/
structure FileVersion where
  version : Nat
  size : Nat
  manifest : ChunkManifest
  comment : Option String
deriving DecidableEq, Repr

/-- Translation of `FileVersion::new`: the size is taken from the manifest. -/
def FileVersion.new (version : Nat) (manifest : ChunkManifest)
    (comment : Option String) : FileVersion :=
  { version := version, size := manifest.total_size,
    manifest := manifest, comment := comment }

/-- Translation of `VersionManager` (src/metadata/version.rs lines 41-46):
the `HashMap<u64, Vec<FileVersion>>` becomes a function defaulting to `[]`
(which also models the `entry(ino).or_insert_with(Vec::new)` access). -/
structure VersionManager where
  versions : Nat → List FileVersion
  max_versions : Nat

def VersionManager.new (max_versions : Nat) : VersionManager :=
  { versions := fun _ => [], max_versions := max_versions }

/-- Pointwise map update (the effect of storing a new value under one key
of the `HashMap`). -/
def funUpdate (f : Nat → List FileVersion) (ino : Nat)
    (v : List FileVersion) : Nat → List FileVersion :=
  fun i => if i = ino then v else f i

theorem funUpdate_same (f : Nat → List FileVersion) (ino : Nat)
    (v : List FileVersion) : funUpdate f ino v ino = v := by
  simp [funUpdate]

/-- The `versions.last().map(|v| v.version + 1).unwrap_or(1)` computation of
`add_version`. -/
def VersionManager.next_number (vm : VersionManager) (ino : Nat) : Nat :=
  ((vm.versions ino).getLast?.map (fun v => v.version + 1)).getD 1

/-- Translation of `VersionManager::add_version` (src/metadata/version.rs
lines 58-75): append a FileVersion numbered `last.version + 1` (or 1), then
when `max_versions > 0` is exceeded drain the oldest entries from the
front.  Returns the assigned number and the updated manager. -/
def VersionManager.add_version (vm : VersionManager) (ino : Nat)
    (manifest : ChunkManifest) (comment : Option String) :
    Nat × VersionManager :=
  let vs2 := vm.versions ino ++
    [FileVersion.new (vm.next_number ino) manifest comment]
  let vs3 := if 0 < vm.max_versions ∧ vm.max_versions < vs2.length
    then vs2.drop (vs2.length - vm.max_versions) else vs2
  (vm.next_number ino,
    { vm with versions := funUpdate vm.versions ino vs3 })

/-- Ordered-set insertion, modelling `HashSet::insert` (membership
semantics; first-insertion order standing in for the unspecified hash
iteration order — theorems below use membership only). -/
def insertIdSet (s : List String) (x : String) : List String :=
  if s.contains x then s else s ++ [x]

/-- Translation of `VersionManager::get_orphaned_chunks` (src/metadata/
version.rs lines 109-128): collect the chunk ids of all *retained* versions
of the inode into `all_chunks` and return `all_chunks` minus the ids of the
current manifest. -/
def VersionManager.get_orphaned_chunks (vm : VersionManager) (ino : Nat)
    (current_manifest : ChunkManifest) : List String :=
  let current_chunks := current_manifest.chunks.map (fun c => c.id)
  let all_chunks :=
    (((vm.versions ino).map
      (fun v => v.manifest.chunks.map (fun c => c.id))).flatten).foldl
      insertIdSet []
  all_chunks.filter (fun x => !(current_chunks.contains x))

/-- Successive `add_version` calls for one inode (the iteration used by the
version-eviction claims). -/
def VersionManager.add_versions_from (vm : VersionManager) (ino : Nat) :
    List ChunkManifest → List Nat × VersionManager
  | [] => ([], vm)
  | man :: rest =>
    let r := vm.add_version ino man none
    let r2 := r.2.add_versions_from ino rest
    (r.1 :: r2.1, r2.2)

/-- The full history that `n` successive commits would build with no
eviction: versions numbered `start+1, start+2, ...`, one per manifest. -/
def expectedFullHistory (start : Nat) : List ChunkManifest → List FileVersion
  | [] => []
  | man :: rest =>
    FileVersion.new (start + 1) man none :: expectedFullHistory (start + 1) rest

theorem expectedFullHistory_length (start : Nat) (ms : List ChunkManifest) :
    (expectedFullHistory start ms).length = ms.length := by
  induction ms generalizing start with
  | nil => rfl
  | cons man rest ih =>
    rw [expectedFullHistory, List.length_cons, List.length_cons, ih]

theorem expectedFullHistory_append (start : Nat) (l1 l2 : List ChunkManifest) :
    expectedFullHistory start (l1 ++ l2) =
      expectedFullHistory start l1 ++
        expectedFullHistory (start + l1.length) l2 := by
  induction l1 generalizing start with
  | nil => simp [expectedFullHistory]
  | cons man rest ih =>
    rw [List.cons_append, expectedFullHistory, expectedFullHistory, ih]
    simp only [List.cons_append, List.length_cons]
    have harith : start + 1 + rest.length = start + (rest.length + 1) := by omega
    rw [harith]

theorem expectedFullHistory_getLast (start : Nat) (ms : List ChunkManifest)
    (h : ms ≠ []) :
    (expectedFullHistory start ms).getLast?.map (fun v => v.version) =
      some (start + ms.length) := by
  induction ms generalizing start with
  | nil => exact absurd rfl h
  | cons man rest ih =>
    cases rest with
    | nil => simp [expectedFullHistory, FileVersion.new]
    | cons man2 rest2 =>
      rw [expectedFullHistory, expectedFullHistory, List.getLast?_cons_cons]
      have hih := ih (start + 1) (by simp)
      rw [expectedFullHistory] at hih
      rw [hih]
      congr 1
      simp only [List.length_cons]
      omega

theorem getLast?_drop_of_lt {α : Type} (l : List α) (k : Nat)
    (h : k < l.length) : (l.drop k).getLast? = l.getLast? := by
  rw [List.getLast?_eq_getElem?, List.getLast?_eq_getElem?,
    List.getElem?_drop, List.length_drop]
  congr 1
  omega

theorem add_versions_from_append (ino : Nat) (l1 l2 : List ChunkManifest) :
    ∀ vm : VersionManager,
    vm.add_versions_from ino (l1 ++ l2) =
      ((vm.add_versions_from ino l1).1 ++
        ((vm.add_versions_from ino l1).2.add_versions_from ino l2).1,
       ((vm.add_versions_from ino l1).2.add_versions_from ino l2).2) := by
  induction l1 with
  | nil => intro vm; simp [VersionManager.add_versions_from]
  | cons man rest ih =>
    intro vm
    rw [List.cons_append, VersionManager.add_versions_from,
      VersionManager.add_versions_from]
    rw [ih]
    simp

/-- The next version number computed by `add_version` on a state whose
history for `ino` is a suffix of the expected full history of `n` commits
is `n + 1`. -/
theorem versions_next_number (vm : VersionManager) (ino : Nat)
    (ms : List ChunkManifest) (m : Nat)
    (hvs : vm.versions ino = (expectedFullHistory 0 ms).drop
      (ms.length - (if m = 0 then ms.length else min ms.length m))) :
    vm.next_number ino = ms.length + 1 := by
  rw [VersionManager.next_number]
  have hfull_len : (expectedFullHistory 0 ms).length = ms.length :=
    expectedFullHistory_length 0 ms
  by_cases hempty : ms.length = 0
  · have hms : ms = [] := List.length_eq_zero.mp hempty
    subst hms
    rw [hvs]
    simp [expectedFullHistory]
  · have hkeep_pos : 0 < (if m = 0 then ms.length else min ms.length m) := by
      by_cases h0 : m = 0 <;> simp [h0] <;> omega
    have hdroplt : ms.length - (if m = 0 then ms.length else min ms.length m) <
        (expectedFullHistory 0 ms).length := by
      rw [hfull_len]; omega
    rw [hvs, getLast?_drop_of_lt _ _ hdroplt]
    have hlast := expectedFullHistory_getLast 0 ms
      (by intro hnil; rw [hnil] at hempty; exact hempty rfl)
    rcases hget : (expectedFullHistory 0 ms).getLast? with _ | v
    · rw [hget] at hlast; exact absurd hlast (by simp)
    · rw [hget] at hlast
      simp only [Option.map_some'] at hlast
      have hv : v.version = ms.length := by
        have := Option.some.inj hlast
        omega
      simp only [Option.map_some', Option.getD_some]
      omega

/-- One `add_version` step on a state holding the retained suffix of `n`
commits: it assigns number `n + 1` and retains the suffix for `n + 1`
commits. -/
theorem add_version_step (vm : VersionManager) (ino : Nat)
    (man : ChunkManifest) (full : List FileVersion) (n m : Nat)
    (hmax : vm.max_versions = m)
    (hfull_len : full.length = n)
    (hvs : vm.versions ino =
      full.drop (n - (if m = 0 then n else min n m)))
    (hnext : vm.next_number ino = n + 1) :
    (vm.add_version ino man none).1 = n + 1 ∧
    (vm.add_version ino man none).2.versions ino =
      (full ++ [FileVersion.new (n + 1) man none]).drop
        ((n + 1) - (if m = 0 then n + 1 else min (n + 1) m)) ∧
    ((vm.add_version ino man none).2.versions ino).length =
      (if m = 0 then n + 1 else min (n + 1) m) ∧
    (vm.add_version ino man none).2.max_versions = m := by
  have hkeep_le : (if m = 0 then n else min n m) ≤ n := by
    by_cases h0 : m = 0 <;> simp [h0]
  have hkeep_len : full.length - (n - (if m = 0 then n else min n m)) =
      (if m = 0 then n else min n m) := by
    rw [hfull_len]; omega
  have hdrople : n - (if m = 0 then n else min n m) ≤ full.length := by
    rw [hfull_len]; omega
  have hvs_len : (vm.versions ino).length = (if m = 0 then n else min n m) := by
    rw [hvs, List.length_drop, hkeep_len]
  have hvs2 : vm.versions ino ++ [FileVersion.new (n + 1) man none] =
      (full ++ [FileVersion.new (n + 1) man none]).drop
        (n - (if m = 0 then n else min n m)) := by
    rw [hvs, List.drop_append_of_le_length hdrople]
  have hvs2_len :
      (vm.versions ino ++ [FileVersion.new (n + 1) man none]).length =
        (if m = 0 then n else min n m) + 1 := by
    rw [List.length_append, hvs_len, List.length_cons, List.length_nil]
  have hfst : (vm.add_version ino man none).1 = vm.next_number ino := rfl
  have hmax2 : (vm.add_version ino man none).2.max_versions =
    vm.max_versions := rfl
  have hver0 : (vm.add_version ino man none).2.versions ino =
      (if 0 < vm.max_versions ∧ vm.max_versions <
          (vm.versions ino ++
            [FileVersion.new (vm.next_number ino) man none]).length
       then (vm.versions ino ++
          [FileVersion.new (vm.next_number ino) man none]).drop
         ((vm.versions ino ++
            [FileVersion.new (vm.next_number ino) man none]).length -
           vm.max_versions)
       else vm.versions ino ++
         [FileVersion.new (vm.next_number ino) man none]) :=
    funUpdate_same _ _ _
  rw [hnext, hmax] at hver0
  refine ⟨by rw [hfst, hnext], ?_, ?_, by rw [hmax2, hmax]⟩
  · rw [hver0, hvs2_len]
    by_cases h0 : m = 0
    · rw [if_neg (by omega)]
      rw [hvs2]
      congr 1
      rw [if_pos h0, if_pos h0]
      omega
    · by_cases hmn : m ≤ n
      · have hkeepm : (if m = 0 then n else min n m) = m := by
          rw [if_neg h0]; omega
        rw [if_pos (by rw [hkeepm]; omega)]
        rw [hvs2, List.drop_drop]
        congr 1
        rw [hkeepm, if_neg h0]
        omega
      · have hkeepn : (if m = 0 then n else min n m) = n := by
          rw [if_neg h0]; omega
        rw [if_neg (by rw [hkeepn]; omega)]
        rw [hvs2]
        congr 1
        rw [hkeepn, if_neg h0]
        omega
  · rw [hver0, hvs2_len]
    by_cases h0 : m = 0
    · rw [if_neg (by omega)]
      rw [hvs2_len, if_pos h0, if_pos h0]
    · by_cases hmn : m ≤ n
      · have hkeepm : (if m = 0 then n else min n m) = m := by
          rw [if_neg h0]; omega
        rw [if_pos (by rw [hkeepm]; omega)]
        rw [List.length_drop, hvs2_len, hkeepm, if_neg h0]
        omega
      · have hkeepn : (if m = 0 then n else min n m) = n := by
          rw [if_neg h0]; omega
        rw [if_neg (by rw [hkeepn]; omega)]
        rw [hvs2_len, hkeepn, if_neg h0]
        omega

/-- C6: after n successive add_version calls for one inode with
max_versions = m, the assigned version numbers are 1, 2, ..., n, and the
retained history is exactly the newest `min n m` entries of the full
history when m > 0, and the whole history when m = 0 (so e.g. with m = 2
and 4 commits exactly versions 3 and 4 remain). -/
theorem version_eviction_c6 (m ino : Nat) (ms : List ChunkManifest) :
    (((VersionManager.new m).add_versions_from ino ms).1 =
      (List.range ms.length).map (fun j => j + 1)) ∧
    (((VersionManager.new m).add_versions_from ino ms).2.versions ino =
      (expectedFullHistory 0 ms).drop
        (ms.length - (if m = 0 then ms.length else min ms.length m))) ∧
    (((VersionManager.new m).add_versions_from ino ms).2.versions ino).length =
      (if m = 0 then ms.length else min ms.length m) ∧
    ((VersionManager.new m).add_versions_from ino ms).2.max_versions = m := by
  induction ms using List.reverseRecOn with
  | nil =>
    refine ⟨rfl, ?_, ?_, rfl⟩
    · simp [VersionManager.add_versions_from, VersionManager.new,
        expectedFullHistory]
    · show ([] : List FileVersion).length = _
      by_cases h0 : m = 0 <;> simp [h0]
  | append_singleton ms man ih =>
    obtain ⟨ih1, ih2, ih3, ih4⟩ := ih
    have hnext := versions_next_number
      ((VersionManager.new m).add_versions_from ino ms).2 ino ms m ih2
    obtain ⟨s1, s2, s3, s4⟩ := add_version_step
      ((VersionManager.new m).add_versions_from ino ms).2 ino man
      (expectedFullHistory 0 ms) ms.length m ih4
      (expectedFullHistory_length 0 ms) ih2 hnext
    rw [add_versions_from_append]
    rw [VersionManager.add_versions_from, VersionManager.add_versions_from]
    simp only [VersionManager.add_versions_from]
    have hfull2 : expectedFullHistory 0 (ms ++ [man]) =
        expectedFullHistory 0 ms ++ [FileVersion.new (ms.length + 1) man none] := by
      rw [expectedFullHistory_append]
      congr 1
      rw [expectedFullHistory, expectedFullHistory]
      rw [Nat.zero_add]
    refine ⟨?_, ?_, ?_, s4⟩
    · rw [ih1, s1, List.length_append, List.length_cons, List.length_nil,
        List.range_succ, List.map_append]
      rfl
    · rw [s2, hfull2, List.length_append, List.length_cons, List.length_nil]
    · rw [s3, List.length_append, List.length_cons, List.length_nil]

/-- Concrete one-chunk manifest used by the garbage-collection evaluation. -/
def manifestWith (cid : String) : ChunkManifest :=
  { version := 1, total_size := 4,
    chunks := [⟨cid, 4, 1, 0, 4, false⟩], file_hash := "h" }

/-- C5 evaluation at the failing input from the spec scenario
(max_versions = 2, four successive commits touching chunks a, b, c, d, then
the query with the current manifest d): the code returns exactly ["c"],
although "c" is still referenced by retained version 3, and the id "a" —
referenced only by the evicted versions — is not returned, because evicted
manifests are dropped before the query can see them. -/
theorem get_orphaned_chunks_c5_eval :
    (((VersionManager.new 2).add_versions_from 1
        [manifestWith "a", manifestWith "b", manifestWith "c",
         manifestWith "d"]).2.get_orphaned_chunks 1 (manifestWith "d"))
      = ["c"] ∧
    (((VersionManager.new 2).add_versions_from 1
        [manifestWith "a", manifestWith "b", manifestWith "c",
         manifestWith "d"]).2.versions 1).map (fun v => v.version) = [3, 4] ∧
    (((VersionManager.new 2).add_versions_from 1
        [manifestWith "a", manifestWith "b", manifestWith "c",
         manifestWith "d"]).2.versions 1).map
      (fun v => v.manifest.chunks.map (fun c => c.id)) = [["c"], ["d"]] := by
  refine ⟨by decide, by decide, by decide⟩

/-! ## LruCache (src/cache/lru.rs)

The `VecDeque` order queue (front = oldest) becomes a list whose head is
the front; `HashMap<K, usize>` becomes a function into `Option Nat`. -/

structure LruCache (K : Type) where
  order : List K
  positions : K → Option Nat
  generation : Nat

/-- Translation of `LruCache::new`. -/
def LruCache.new {K : Type} : LruCache K :=
  { order := [], positions := fun _ => none, generation := 0 }

/-- Translation of `LruCache::insert` (src/cache/lru.rs lines 26-30):
bump the generation, record it for the key, push to the back. -/
def LruCache.insert {K : Type} [DecidableEq K] (c : LruCache K) (key : K) :
    LruCache K :=
  { order := c.order ++ [key],
    positions := fun x => if x = key then some (c.generation + 1)
      else c.positions x,
    generation := c.generation + 1 }

/-- Translation of `LruCache::touch` (src/cache/lru.rs lines 33-39): like
insert, but only when the key is currently tracked. -/
def LruCache.touch {K : Type} [DecidableEq K] (c : LruCache K) (key : K) :
    LruCache K :=
  if (c.positions key).isSome then
    { order := c.order ++ [key],
      positions := fun x => if x = key then some (c.generation + 1)
        else c.positions x,
      generation := c.generation + 1 }
  else c

/-- Translation of `LruCache::remove` (src/cache/lru.rs lines 42-45): lazy
removal, the order queue is untouched. -/
def LruCache.remove {K : Type} [DecidableEq K] (c : LruCache K) (key : K) :
    LruCache K :=
  { c with positions := fun x => if x = key then none else c.positions x }

/-- The `is_newest` scan inside the pop_oldest loop (src/cache/lru.rs lines
53-55), translated verbatim: every remaining occurrence of the key must not
carry a newer generation. -/
def isNewestCheck {K : Type} [DecidableEq K] (pos : K → Option Nat)
    (key : K) (gen : Nat) (rest : List K) : Bool :=
  rest.all (fun k =>
    decide (k ≠ key) || (match pos k with
      | some g2 => decide (g2 ≤ gen)
      | none => true))

/-- Loop of `LruCache::pop_oldest` (src/cache/lru.rs lines 48-63): pop front
entries; skip keys no longer tracked; when the `is_newest` check passes the
key is removed from the position map and returned. -/
def popGo {K : Type} [DecidableEq K] (pos : K → Option Nat) (g : Nat) :
    List K → Option K × LruCache K
  | [] => (none, ⟨[], pos, g⟩)
  | key :: rest =>
    match pos key with
    | some gen =>
      if isNewestCheck pos key gen rest then
        (some key, ⟨rest, fun x => if x = key then none else pos x, g⟩)
      else popGo pos g rest
    | none => popGo pos g rest

theorem popGo_cons_none {K : Type} [DecidableEq K] (pos : K → Option Nat)
    (g : Nat) (key : K) (rest : List K) (hp : pos key = none) :
    popGo pos g (key :: rest) = popGo pos g rest := by
  rw [popGo, hp]

theorem popGo_cons_newest {K : Type} [DecidableEq K] (pos : K → Option Nat)
    (g : Nat) (key : K) (gen : Nat) (rest : List K)
    (hp : pos key = some gen)
    (hnew : isNewestCheck pos key gen rest = true) :
    popGo pos g (key :: rest) =
      (some key, ⟨rest, fun x => if x = key then none else pos x, g⟩) := by
  rw [popGo, hp]
  show (if isNewestCheck pos key gen rest = true then _ else _) = _
  rw [hnew]
  simp

theorem popGo_cons_stale {K : Type} [DecidableEq K] (pos : K → Option Nat)
    (g : Nat) (key : K) (gen : Nat) (rest : List K)
    (hp : pos key = some gen)
    (hnew : isNewestCheck pos key gen rest = false) :
    popGo pos g (key :: rest) = popGo pos g rest := by
  rw [popGo, hp]
  show (if isNewestCheck pos key gen rest = true then _ else _) = _
  rw [hnew]
  simp

/-- Translation of `LruCache::pop_oldest`. -/
def LruCache.pop_oldest {K : Type} [DecidableEq K] (c : LruCache K) :
    Option K × LruCache K :=
  popGo c.positions c.generation c.order

/-- The operations of the C9 trace: insert, touch, remove, interleaved
pop_oldest calls. -/
inductive LruOp (K : Type) where
  | insert (key : K)
  | touch (key : K)
  | remove (key : K)
  | pop
deriving DecidableEq, Repr

def LruCache.execOp {K : Type} [DecidableEq K] (c : LruCache K) :
    LruOp K → LruCache K
  | .insert k => c.insert k
  | .touch k => c.touch k
  | .remove k => c.remove k
  | .pop => c.pop_oldest.2

def LruCache.execOps {K : Type} [DecidableEq K] (c : LruCache K) :
    List (LruOp K) → LruCache K
  | [] => c
  | op :: rest => (c.execOp op).execOps rest

theorem popGo_some_mem {K : Type} [DecidableEq K] (pos : K → Option Nat)
    (g : Nat) (k : K) :
    ∀ order : List K, (popGo pos g order).1 = some k → pos k ≠ none := by
  intro order
  induction order with
  | nil => intro h; exact absurd h (by simp [popGo])
  | cons key rest ih =>
    intro h
    rcases hp : pos key with _ | gen
    · rw [popGo_cons_none pos g key rest hp] at h
      exact ih h
    · cases hnew : isNewestCheck pos key gen rest with
      | true =>
        rw [popGo_cons_newest pos g key gen rest hp hnew] at h
        have hk : key = k := Option.some.inj h
        subst hk
        rw [hp]
        simp
      | false =>
        rw [popGo_cons_stale pos g key gen rest hp hnew] at h
        exact ih h

theorem popGo_some_removed {K : Type} [DecidableEq K] (pos : K → Option Nat)
    (g : Nat) (k : K) :
    ∀ order : List K, (popGo pos g order).1 = some k →
      (popGo pos g order).2.positions k = none := by
  intro order
  induction order with
  | nil => intro h; exact absurd h (by simp [popGo])
  | cons key rest ih =>
    intro h
    rcases hp : pos key with _ | gen
    · rw [popGo_cons_none pos g key rest hp] at h ⊢
      exact ih h
    · cases hnew : isNewestCheck pos key gen rest with
      | true =>
        rw [popGo_cons_newest pos g key gen rest hp hnew] at h ⊢
        have hk : key = k := Option.some.inj h
        subst hk
        simp
      | false =>
        rw [popGo_cons_stale pos g key gen rest hp hnew] at h ⊢
        exact ih h

theorem popGo_preserves_none {K : Type} [DecidableEq K] (pos : K → Option Nat)
    (g : Nat) (k : K) (habs : pos k = none) :
    ∀ order : List K, (popGo pos g order).2.positions k = none := by
  intro order
  induction order with
  | nil => exact habs
  | cons key rest ih =>
    rcases hp : pos key with _ | gen
    · rw [popGo_cons_none pos g key rest hp]
      exact ih
    · cases hnew : isNewestCheck pos key gen rest with
      | true =>
        rw [popGo_cons_newest pos g key gen rest hp hnew]
        show (if k = key then none else pos k) = none
        by_cases hk : k = key
        · rw [if_pos hk]
        · rw [if_neg hk]; exact habs
      | false =>
        rw [popGo_cons_stale pos g key gen rest hp hnew]
        exact ih

theorem execOp_preserves_none {K : Type} [DecidableEq K] (c : LruCache K)
    (op : LruOp K) (k : K) (hop : op ≠ LruOp.insert k)
    (habs : c.positions k = none) : (c.execOp op).positions k = none := by
  cases op with
  | insert k2 =>
    rw [LruCache.execOp, LruCache.insert]
    show (if k = k2 then some (c.generation + 1) else c.positions k) = none
    by_cases hk : k = k2
    · subst hk; exact absurd rfl hop
    · rw [if_neg hk]; exact habs
  | touch k2 =>
    rw [LruCache.execOp, LruCache.touch]
    by_cases ht : (c.positions k2).isSome
    · rw [if_pos ht]
      show (if k = k2 then some (c.generation + 1) else c.positions k) = none
      by_cases hk : k = k2
      · subst hk
        rw [habs] at ht
        exact absurd ht (by simp)
      · rw [if_neg hk]; exact habs
    · rw [if_neg ht]; exact habs
  | remove k2 =>
    rw [LruCache.execOp, LruCache.remove]
    show (if k = k2 then none else c.positions k) = none
    by_cases hk : k = k2
    · rw [if_pos hk]
    · rw [if_neg hk]; exact habs
  | pop =>
    rw [LruCache.execOp, LruCache.pop_oldest]
    exact popGo_preserves_none c.positions c.generation k habs c.order

theorem execOps_preserves_none {K : Type} [DecidableEq K] (k : K) :
    ∀ (ops : List (LruOp K)) (c : LruCache K), LruOp.insert k ∉ ops →
      c.positions k = none → (c.execOps ops).positions k = none := by
  intro ops
  induction ops with
  | nil => intro c _ habs; exact habs
  | cons op rest ih =>
    intro c hmem habs
    rw [LruCache.execOps]
    apply ih
    · intro hin; exact hmem (List.mem_cons_of_mem op hin)
    · apply execOp_preserves_none c op k
      · intro heq; exact hmem (heq ▸ List.mem_cons_self op rest)
      · exact habs

/-- C9: pop_oldest never returns a key that a previous pop_oldest already
returned unless that key was re-inserted in between — each id is evicted at
most once, for every sequence of insert/touch/remove operations interleaved
with pops, even when a key is touched repeatedly without compact. -/
theorem lru_pop_at_most_once_c9 {K : Type} [DecidableEq K]
    (ops1 ops2 : List (LruOp K)) (k : K)
    (h1 : ((LruCache.new.execOps ops1 : LruCache K).pop_oldest).1 = some k)
    (h2 : (((((LruCache.new.execOps ops1 : LruCache K).pop_oldest).2.execOps
      ops2)).pop_oldest).1 = some k) :
    LruOp.insert k ∈ ops2 := by
  by_contra hmem
  have habs : ((LruCache.new.execOps ops1 : LruCache K).pop_oldest).2.positions
      k = none := by
    rw [LruCache.pop_oldest] at h1 ⊢
    exact popGo_some_removed _ _ k _ h1
  have habs2 : (((((LruCache.new.execOps ops1 : LruCache K).pop_oldest).2.execOps
      ops2)).positions) k = none :=
    execOps_preserves_none k ops2 _ hmem habs
  rw [LruCache.pop_oldest] at h2
  exact popGo_some_mem _ _ k _ h2 habs2

/-- Witness for C9 at a concrete trace: the first pop evicts key 1; after
removing 2 and re-inserting 1 the next pop returns 1 again, and indeed the
re-insert is in the intermediate operations. -/
theorem lru_pop_at_most_once_c9_witness :
    LruOp.insert 1 ∈ [LruOp.remove 2, LruOp.insert (1 : Nat)] :=
  lru_pop_at_most_once_c9 [LruOp.insert 1, LruOp.insert 2]
    [LruOp.remove 2, LruOp.insert 1] 1 (by decide) (by decide)

/-! ## HKDF purpose-string migration (src/migration.rs)

`detect_hkdf_version` is in src/; the AEAD it calls (`EncryptedData`,
`decrypt` of the absent src/crypto module) is modelled ideally. -/

/-- Modelled from the spec: a ciphertext blob of the absent src/crypto
module (spec section 4.1).  An ideal authenticated cipher: a well-formed
blob records the key it was sealed under and its plaintext; anything else
is malformed. -/
inductive Blob where
  | sealed (key : Nat) (plaintext : List Nat)
  | malformed
deriving DecidableEq, Repr

/-- Modelled from the spec: the parsed `{nonce, ciphertext||tag}` value. -/
structure EncryptedData where
  key : Nat
  plaintext : List Nat
deriving DecidableEq, Repr

/-- Modelled from the spec: `EncryptedData::from_bytes` fails exactly on
malformed blobs. -/
def EncryptedData.from_bytes : Blob → Option EncryptedData
  | .sealed k p => some ⟨k, p⟩
  | .malformed => none

/-- Modelled from the spec: `decrypt(key, encrypted, aad)` returns the
plaintext iff the key matches, and fails with a tag mismatch otherwise. -/
def decrypt (key : Nat) (e : EncryptedData) : Option (List Nat) :=
  if e.key = key then some e.plaintext else none

/-- Translation of `HkdfVersion` (src/migration.rs lines 230-235). -/
inductive HkdfVersion where
  | Old
  | New
  | Unknown
deriving DecidableEq, Repr

/-- Translation of `detect_hkdf_version` (src/migration.rs lines 206-228):
parse, try the new key first, then the old key, else Unknown. -/
def detect_hkdf_version (raw : Blob) (old_key new_key : Nat) : HkdfVersion :=
  match EncryptedData.from_bytes raw with
  | none => HkdfVersion.Unknown
  | some encrypted =>
    if (decrypt new_key encrypted).isSome then HkdfVersion.New
    else if (decrypt old_key encrypted).isSome then HkdfVersion.Old
    else HkdfVersion.Unknown

/-- Whether a blob parses and decrypts under a given key. -/
def decryptsUnder (raw : Blob) (k : Nat) : Bool :=
  match EncryptedData.from_bytes raw with
  | none => false
  | some e => (decrypt k e).isSome

/-- C8: detect_hkdf_version classifies every blob exactly once into
{New, Old, Unknown}: New iff it decrypts under the new key; Old iff it
fails under the new key but decrypts under the old key; Unknown iff it is
unparseable or decrypts under neither key. -/
theorem detect_hkdf_version_c8 (raw : Blob) (old_key new_key : Nat) :
    (detect_hkdf_version raw old_key new_key = HkdfVersion.New ↔
      decryptsUnder raw new_key = true) ∧
    (detect_hkdf_version raw old_key new_key = HkdfVersion.Old ↔
      (decryptsUnder raw new_key = false ∧
        decryptsUnder raw old_key = true)) ∧
    (detect_hkdf_version raw old_key new_key = HkdfVersion.Unknown ↔
      (EncryptedData.from_bytes raw = none ∨
        (decryptsUnder raw new_key = false ∧
          decryptsUnder raw old_key = false))) := by
  cases raw with
  | malformed =>
    simp [detect_hkdf_version, decryptsUnder, EncryptedData.from_bytes]
  | sealed k p =>
    by_cases hn : k = new_key
    · simp [detect_hkdf_version, decryptsUnder, EncryptedData.from_bytes,
        decrypt, hn]
    · by_cases ho : k = old_key
      · subst ho
        simp [detect_hkdf_version, decryptsUnder, EncryptedData.from_bytes,
          decrypt, hn]
      · simp [detect_hkdf_version, decryptsUnder, EncryptedData.from_bytes,
          decrypt, hn, ho]

/-! ## Rebuild (src/raid/rebuild.rs)

`rebuild_account` is in src/; the health tracker (src/raid/health.rs), the
account pool, and the block-location structures it uses are absent from
src/ and are modelled from the spec (sections 3, 4.4, 4.5). -/

/-- Modelled from the spec: the per-account states of the absent
src/raid/health.rs (spec section 4.4). -/
inductive AccountStatus where
  | Healthy
  | Degraded
  | Rebuilding
  | Unavailable
deriving DecidableEq, Repr

/-- Modelled from the spec: the HealthTracker of the absent
src/raid/health.rs records a status per account.  `set_healthy` and
`set_rebuilding` set the status; `update_rebuild_progress` records a
progress fraction (floating point, outside the embedding) and leaves the
status unchanged; `record_success` / `record_failure` maintain
consecutive-failure counters, not the status — so only the explicit
status-setting calls of rebuild_account matter here. -/
structure HealthTracker where
  status : Nat → AccountStatus

def HealthTracker.set_healthy (t : HealthTracker) (a : Nat) : HealthTracker :=
  ⟨fun i => if i = a then AccountStatus.Healthy else t.status i⟩

def HealthTracker.set_rebuilding (t : HealthTracker) (a : Nat) :
    HealthTracker :=
  ⟨fun i => if i = a then AccountStatus.Rebuilding else t.status i⟩

/-- Modelled from the spec: `BlockLocation` (spec section 3; declared in the
crate's chunk module, whose definition is absent from src/). -/
structure BlockLocation where
  account_id : Nat
  message_id : Option Int
  block_index : Nat
  uploaded_at : Option Int
deriving DecidableEq, Repr

/-- Modelled from the spec: `StripeInfo` (spec section 3). -/
structure StripeInfo where
  blocks : List BlockLocation
  data_count : Nat
  parity_count : Nat
  block_size : Nat
deriving DecidableEq, Repr

/-- Modelled from the spec: `ErasureChunkRef` (the manifest entry carrying a
StripeInfo; fields as constructed in the src/raid/rebuild.rs tests). -/
structure ErasureChunkRef where
  id : String
  offset : Nat
  original_size : Nat
  compressed : Bool
  stripe : StripeInfo
  version : Nat
deriving DecidableEq, Repr

/-- Error payload of `Error::RebuildFailed {account, reason}`. -/
structure RebuildError where
  account : Nat
  reason : String
deriving DecidableEq, Repr

/-- The stripes placing a block on the target account (src/raid/rebuild.rs
lines 172-180). -/
def affected_stripes (stripes : List ErasureChunkRef) (account_id : Nat) :
    List ErasureChunkRef :=
  stripes.filter
    (fun s => s.stripe.blocks.any (fun b => decide (b.account_id = account_id)))

/-- Translation of the control flow of `RebuildManager::rebuild_account`
(src/raid/rebuild.rs lines 159-281).  The awaited result of
`rebuild_stripe_for_account` for each stripe is abstracted as `outcome`
(its body performs remote I/O through the account pool, absent from src/):
`none` models `Ok(())` and `some reason` models `Err(e)`.  Batching over
`chunks(batch_size)` visits the affected stripes in order, so the collected
failure list is the in-order list of failures; progress callbacks and
`update_rebuild_progress` do not change health status. -/
def rebuild_account (outcome : ErasureChunkRef → Option String)
    (ht : HealthTracker) (account_id : Nat)
    (stripes : List ErasureChunkRef) :
    Option RebuildError × HealthTracker :=
  let aff := affected_stripes stripes account_id
  if aff.length = 0 then (none, ht.set_healthy account_id)
  else
    let ht1 := ht.set_rebuilding account_id
    let failed := aff.filterMap
      (fun s => (outcome s).map (fun r => (s.id, r)))
    if failed.length = 0 then (none, ht1.set_healthy account_id)
    else
      (some ⟨account_id,
        toString failed.length ++ " stripes failed to rebuild"⟩, ht1)

theorem set_healthy_at (t : HealthTracker) (a : Nat) :
    (t.set_healthy a).status a = AccountStatus.Healthy := by
  simp [HealthTracker.set_healthy]

theorem set_rebuilding_at (t : HealthTracker) (a : Nat) :
    (t.set_rebuilding a).status a = AccountStatus.Rebuilding := by
  simp [HealthTracker.set_rebuilding]

/-- C7 (amended): rebuild_account returns Ok and leaves the target account
Healthy iff every affected stripe is rebuilt successfully; if some stripe
fails it returns RebuildFailed{account, reason} and the target account is
not marked Healthy — it is left in the Rebuilding state entered when the
rebuild began (not reset to Degraded). -/
theorem rebuild_account_c7 (outcome : ErasureChunkRef → Option String)
    (ht : HealthTracker) (a : Nat) (stripes : List ErasureChunkRef) :
    (((rebuild_account outcome ht a stripes).1 = none ∧
      (rebuild_account outcome ht a stripes).2.status a =
        AccountStatus.Healthy) ↔
      ∀ s ∈ affected_stripes stripes a, outcome s = none) ∧
    ((∃ s ∈ affected_stripes stripes a, outcome s ≠ none) →
      (∃ r, (rebuild_account outcome ht a stripes).1 = some ⟨a, r⟩) ∧
      (rebuild_account outcome ht a stripes).2.status a =
        AccountStatus.Rebuilding) := by
  have hfm : ((affected_stripes stripes a).filterMap
      (fun s => (outcome s).map (fun r => (s.id, r)))).length = 0 ↔
      ∀ s ∈ affected_stripes stripes a, outcome s = none := by
    rw [List.length_eq_zero, List.filterMap_eq_nil_iff]
    constructor
    · intro h s hs
      have := h s hs
      rcases ho : outcome s with _ | r
      · rfl
      · rw [ho] at this
        exact absurd this (by simp)
    · intro h s hs
      rw [h s hs]
      rfl
  rw [rebuild_account]
  by_cases haff : (affected_stripes stripes a).length = 0
  · rw [if_pos haff]
    have hempty : affected_stripes stripes a = [] :=
      List.length_eq_zero.mp haff
    constructor
    · simp only [set_healthy_at, hempty]
      simp
    · intro hex
      rw [hempty] at hex
      exact absurd hex (by simp)
  · rw [if_neg haff]
    by_cases hfail : ((affected_stripes stripes a).filterMap
        (fun s => (outcome s).map (fun r => (s.id, r)))).length = 0
    · rw [if_pos hfail]
      constructor
      · simp only [set_healthy_at]
        simp only [true_and]
        exact ⟨fun _ => hfm.mp hfail, fun _ => trivial⟩
      · intro hex
        obtain ⟨s, hs, hne⟩ := hex
        exact absurd (hfm.mp hfail s hs) hne
    · rw [if_neg hfail]
      constructor
      · constructor
        · intro hc
          exact absurd hc.1 (by simp)
        · intro hall
          exact absurd (hfm.mpr hall) hfail
      · intro _
        refine ⟨⟨_, rfl⟩, ?_⟩
        exact set_rebuilding_at ht a

/-- Concrete fixtures for the rebuild evaluation. -/
def sampleBlockLoc : BlockLocation :=
  { account_id := 0, message_id := some 100, block_index := 0,
    uploaded_at := none }

def sampleStripeInfo : StripeInfo :=
  { blocks := [sampleBlockLoc], data_count := 1, parity_count := 0,
    block_size := 4 }

def sampleStripeRef : ErasureChunkRef :=
  { id := "c1", offset := 0, original_size := 4, compressed := false,
    stripe := sampleStripeInfo, version := 1 }

/-- Witness for C7 at a concrete input: one affected stripe whose rebuild
fails; the call reports RebuildFailed for the account and leaves it
Rebuilding. -/
theorem rebuild_account_c7_witness :
    (rebuild_account (fun _ => some "x")
      ⟨fun _ => AccountStatus.Degraded⟩ 0 [sampleStripeRef]).1 =
      some ⟨0, "1 stripes failed to rebuild"⟩ ∧
    (rebuild_account (fun _ => some "x")
      ⟨fun _ => AccountStatus.Degraded⟩ 0 [sampleStripeRef]).2.status 0 =
      AccountStatus.Rebuilding :=
  ⟨by decide,
    ((rebuild_account_c7 (fun _ => some "x")
      ⟨fun _ => AccountStatus.Degraded⟩ 0 [sampleStripeRef]).2
      ⟨sampleStripeRef, by decide, by decide⟩).2⟩

/-- Counterexample to C7 as stated: starting from a Degraded account, a
failing rebuild leaves the account Rebuilding, not Degraded. -/
theorem rebuild_account_c7_counterexample :
    (rebuild_account (fun _ => some "x")
      ⟨fun _ => AccountStatus.Degraded⟩ 0 [sampleStripeRef]).2.status 0 =
      AccountStatus.Rebuilding ∧
    AccountStatus.Rebuilding ≠ AccountStatus.Degraded := by
  refine ⟨by decide, by decide⟩

/-! ## Reed-Solomon erasure coding (modelled; src/raid/erasure.rs absent)

The stripe claims need an actual Encoder.  Modelled from the spec (section
4.3): systematic Reed-Solomon evaluated by Lagrange interpolation, here
over the prime field with 257 elements in place of GF(2^8) (both are small
fields; any K-of-N argument is the same).  Since `Encoder::decode` must
return the original plaintext exactly (the source tests assert exact
round-trips for lengths not divisible by K), padding uses the spare field
element 256, letting decode strip it; the missing source tracks the exact
length by its own means. -/

/-- The coding field: 257 is prime. -/
abbrev F257 := ZMod 257

instance : Fact (Nat.Prime 257) := ⟨by norm_num⟩

/-- Executable field inverse by the Fermat exponent (the library inverse
`ZMod.inv` is defined by well-founded recursion, which the kernel cannot
evaluate; `a ^ 255` can be evaluated). -/
def finv (a : F257) : F257 := a ^ (255 : Nat)

theorem finv_eq_inv (a : F257) : finv a = a⁻¹ := by
  by_cases h : a = 0
  · subst h
    rw [finv, zero_pow (by norm_num), inv_zero]
  · have h1 : a * finv a = 1 := by
      rw [finv, ← pow_succ']
      exact ZMod.pow_card_sub_one_eq_one h
    exact (inv_eq_of_mul_eq_one_right h1).symm

/-- Executable Lagrange basis value: the basis polynomial of node `xj`
within node set `s`, evaluated at `x`. -/
def lbasisEval (s : Finset F257) (xj x : F257) : F257 :=
  ∏ mm ∈ s.erase xj, (x - mm) * finv (xj - mm)

/-- Executable Lagrange interpolation: the unique polynomial of degree
below `s.card` through `(xj, r xj)` for `xj ∈ s`, evaluated at `x`. -/
def linterpEval (s : Finset F257) (r : F257 → F257) (x : F257) : F257 :=
  ∑ xj ∈ s, r xj * lbasisEval s xj x

theorem lbasisEval_eq (s : Finset F257) (xj x : F257) :
    lbasisEval s xj x = Polynomial.eval x (Lagrange.basis s id xj) := by
  rw [lbasisEval, Lagrange.basis, Polynomial.eval_prod]
  apply Finset.prod_congr rfl
  intro j _
  rw [finv_eq_inv, Lagrange.basisDivisor, Polynomial.eval_mul,
    Polynomial.eval_C, Polynomial.eval_sub, Polynomial.eval_X,
    Polynomial.eval_C, mul_comm]
  rfl

theorem linterpEval_eq (s : Finset F257) (r : F257 → F257) (x : F257) :
    linterpEval s r x = Polynomial.eval x (Lagrange.interpolate s id r) := by
  rw [linterpEval, Lagrange.interpolate_apply, Polynomial.eval_finset_sum]
  apply Finset.sum_congr rfl
  intro i _
  rw [Polynomial.eval_mul, Polynomial.eval_C, lbasisEval_eq]

/-- The padding symbol: the field element 256, which no plaintext byte
(value below 256) maps to. -/
def padSym : F257 := (256 : F257)

/-- Modelled from the spec: each block has size `ceil(plaintext_len / K)`
(spec section 4.3). -/
def Encoder.block_size (e : Encoder) (len : Nat) : Nat :=
  (len + e.data_shards - 1) / e.data_shards

/-- The plaintext as field symbols, padded to `K * block_size` with the
padding symbol. -/
def Encoder.padded (e : Encoder) (data : List Nat) : List F257 :=
  data.map (fun b : Nat => (b : F257)) ++
    List.replicate (e.data_shards * e.block_size data.length - data.length)
      padSym

/-- The data nodes: evaluation points 0, ..., K-1. -/
def Encoder.dataNodes (e : Encoder) : Finset F257 :=
  (Finset.range e.data_shards).image (fun j : Nat => (j : F257))

/-- The data-shard symbol at position `p` as a function of the node: for
node `j < K` this is symbol `j * block_size + p` of the padded plaintext
(data shard `j` holds the j-th consecutive slice). -/
def Encoder.shardValue (e : Encoder) (data : List Nat) (p : Nat) :
    F257 → F257 :=
  fun x => (e.padded data).getD (x.val * e.block_size data.length + p) 0

/-- Modelled from the spec: `Encoder::encode` produces N equal-sized blocks,
the first K being the data slices and the rest parity (systematic
Reed-Solomon: block `i`, position `p` is the degree-below-K interpolation
polynomial of the K data symbols at position `p`, evaluated at node `i`). -/
def Encoder.encode (e : Encoder) (data : List Nat) : List (List F257) :=
  (List.range e.total_shards).map (fun i : Nat =>
    (List.range (e.block_size data.length)).map (fun p =>
      linterpEval e.dataNodes (e.shardValue data p) (i : F257)))

/-- Error kinds of the crate relevant to reconstruction
(`Error::Internal`, `Error::StripeUnrecoverable {available, required}`). -/
inductive Error where
  | internal (msg : String)
  | stripeUnrecoverable (available required : Nat)
deriving DecidableEq, Repr

instance {e a : Type} [DecidableEq e] [DecidableEq a] :
    DecidableEq (Except e a) := fun x y =>
  match x, y with
  | Except.error e1, Except.error e2 =>
    if h : e1 = e2 then Decidable.isTrue (by rw [h])
    else Decidable.isFalse (fun hh => h (by injection hh))
  | Except.ok a1, Except.ok a2 =>
    if h : a1 = a2 then Decidable.isTrue (by rw [h])
    else Decidable.isFalse (fun hh => h (by injection hh))
  | Except.error _, Except.ok _ => Decidable.isFalse (fun hh => by injection hh)
  | Except.ok _, Except.error _ => Decidable.isFalse (fun hh => by injection hh)

/-- Modelled from the spec: `Encoder::decode` accepts any K of the N blocks
by index; with fewer than K it fails with StripeUnrecoverable.  It
interpolates through the first K available blocks, re-evaluates the data
shards at nodes 0..K-1, strips the padding and returns the plaintext. -/
def Encoder.decode (e : Encoder) (shards : List (Option (List F257))) :
    Except Error (List Nat) :=
  let avail := (List.range e.total_shards).filter
    (fun i => (shards.getD i none).isSome)
  if avail.length < e.data_shards then
    Except.error (Error.stripeUnrecoverable avail.length e.data_shards)
  else
    let chosen := avail.take e.data_shards
    let nodes : Finset F257 :=
      (chosen.map (fun i : Nat => (i : F257))).toFinset
    let B := ((shards.getD (avail.headD 0) none).getD []).length
    let symbols := (List.range e.data_shards).flatMap (fun j =>
      (List.range B).map (fun p =>
        linterpEval nodes
          (fun x => ((shards.getD x.val none).getD []).getD p 0)
          ((j : Nat) : F257)))
    Except.ok
      (((symbols.reverse.dropWhile (fun y => y == padSym)).reverse).map
        (fun y => y.val))

/-- Translation of `Stripe` (src/raid/stripe.rs lines 12-21); block bytes
are the model's field symbols. -/
structure Stripe where
  chunk_id : String
  blocks : List (List F257)
  assignments : List Nat
  data_count : Nat

/-- Translation of `StripeManager::create_stripe` (src/raid/stripe.rs lines
122-135).  The Rust `Result` only fails when the encoder configuration is
invalid, which the constructor has already excluded, so the model is
total. -/
def StripeManager.create_stripe (m : StripeManager) (chunk_id : String)
    (data : List Nat) (stripe_index : Nat) : Stripe :=
  { chunk_id := chunk_id,
    blocks := m.encoder.encode data,
    assignments := m.get_assignments stripe_index,
    data_count := m.encoder.data_shards }

/-- The shard-filling loop of `StripeManager::reconstruct`
(src/raid/stripe.rs lines 202-214): indices at or beyond N abort with
`Error::Internal`. -/
def fillShards (n : Nat) :
    List (Nat × List F257) → List (Option (List F257)) →
      Except Error (List (Option (List F257)))
  | [], sh => Except.ok sh
  | (bi, d) :: rest, sh =>
    if n ≤ bi then Except.error (Error.internal "Block index out of range")
    else fillShards n rest (sh.set bi (some d))

/-- Translation of `StripeManager::reconstruct` (src/raid/stripe.rs lines
198-218): place the given blocks into an N-slot shard array, then decode. -/
def StripeManager.reconstruct (m : StripeManager)
    (blocks : List (Nat × List F257)) : Except Error (List Nat) :=
  match fillShards m.encoder.total_shards blocks
      (List.replicate m.encoder.total_shards none) with
  | Except.error e => Except.error e
  | Except.ok shards => m.encoder.decode shards

theorem val_cast_lt (i : Nat) (h : i < 257) : ((i : F257)).val = i :=
  ZMod.val_cast_of_lt h

theorem cast_inj_lt (i j : Nat) (hi : i < 257) (hj : j < 257)
    (h : (i : F257) = (j : F257)) : i = j := by
  have := congrArg ZMod.val h
  rwa [val_cast_lt i hi, val_cast_lt j hj] at this

/-- `k * ceil(len/k)` covers `len`. -/
theorem len_le_mul_block_size (e : Encoder) (len : Nat)
    (hk : 1 ≤ e.data_shards) :
    len ≤ e.data_shards * e.block_size len := by
  rw [Encoder.block_size]
  have hdm := Nat.div_add_mod (len + e.data_shards - 1) e.data_shards
  have hmlt : (len + e.data_shards - 1) % e.data_shards < e.data_shards :=
    Nat.mod_lt _ (by omega)
  omega

/-- The padded plaintext has exactly `K * block_size` symbols. -/
theorem padded_length (e : Encoder) (data : List Nat)
    (hk : 1 ≤ e.data_shards) :
    (e.padded data).length = e.data_shards * e.block_size data.length := by
  rw [Encoder.padded, List.length_append, List.length_map,
    List.length_replicate]
  have := len_le_mul_block_size e data.length hk
  omega

theorem encode_getD (e : Encoder) (data : List Nat) (i : Nat)
    (hi : i < e.total_shards) :
    (e.encode data).getD i [] =
      (List.range (e.block_size data.length)).map
        (fun p => linterpEval e.dataNodes (e.shardValue data p) (i : F257)) := by
  rw [Encoder.encode]
  have hi' : i < ((List.range e.total_shards).map (fun i : Nat =>
      (List.range (e.block_size data.length)).map
        (fun p => linterpEval e.dataNodes (e.shardValue data p)
          (i : F257)))).length := by
    rw [List.length_map, List.length_range]
    exact hi
  rw [List.getD_eq_getElem _ _ hi', List.getElem_map, List.getElem_range]

theorem encode_block_length (e : Encoder) (data : List Nat) (i : Nat)
    (hi : i < e.total_shards) :
    ((e.encode data).getD i []).length = e.block_size data.length := by
  rw [encode_getD e data i hi, List.length_map, List.length_range]

theorem encode_block_getD (e : Encoder) (data : List Nat) (i p : Nat)
    (hi : i < e.total_shards) (hp : p < e.block_size data.length) :
    ((e.encode data).getD i []).getD p 0 =
      linterpEval e.dataNodes (e.shardValue data p) (i : F257) := by
  rw [encode_getD e data i hi]
  have hp' : p < ((List.range (e.block_size data.length)).map
      (fun p => linterpEval e.dataNodes (e.shardValue data p)
        (i : F257))).length := by
    rw [List.length_map, List.length_range]
    exact hp
  rw [List.getD_eq_getElem _ _ hp', List.getElem_map, List.getElem_range]

theorem dataNodes_card (e : Encoder) (h : e.data_shards ≤ 257) :
    e.dataNodes.card = e.data_shards := by
  rw [Encoder.dataNodes, Finset.card_image_of_injOn, Finset.card_range]
  intro x hx y hy hxy
  rw [Finset.coe_range, Set.mem_Iio] at hx hy
  exact cast_inj_lt x y (by omega) (by omega) hxy

theorem mem_dataNodes (e : Encoder) (j : Nat) (hj : j < e.data_shards) :
    ((j : Nat) : F257) ∈ e.dataNodes :=
  Finset.mem_image.mpr ⟨j, Finset.mem_range.mpr hj, rfl⟩

theorem shardValue_cast (e : Encoder) (data : List Nat) (p j : Nat)
    (hj : j < e.data_shards) (h257 : e.data_shards ≤ 257) :
    e.shardValue data p ((j : Nat) : F257) =
      (e.padded data).getD (j * e.block_size data.length + p) 0 := by
  rw [Encoder.shardValue, val_cast_lt j (by omega)]

theorem eval_interp_at_data (e : Encoder) (data : List Nat) (p j : Nat)
    (hj : j < e.data_shards) (h257 : e.data_shards ≤ 257) :
    Polynomial.eval ((j : Nat) : F257)
      (Lagrange.interpolate e.dataNodes id (e.shardValue data p)) =
      (e.padded data).getD (j * e.block_size data.length + p) 0 := by
  have h := Lagrange.eval_interpolate_at_node (Function.injective_id.injOn)
    (mem_dataNodes e j hj) (r := e.shardValue data p)
  rw [id] at h
  rw [h]
  exact shardValue_cast e data p j hj h257

theorem degree_interp_lt (e : Encoder) (data : List Nat) (p : Nat)
    (h257 : e.data_shards ≤ 257) :
    (Lagrange.interpolate e.dataNodes id (e.shardValue data p)).degree <
      (e.data_shards : WithBot Nat) := by
  have h := Lagrange.degree_interpolate_lt (r := e.shardValue data p)
    (Function.injective_id.injOn (s := (e.dataNodes : Set F257)))
  rwa [dataNodes_card e h257] at h

theorem countP_set_le {α : Type} (p : α → Bool) :
    ∀ (l : List α) (i : Nat) (a : α),
      (l.set i a).countP p ≤ l.countP p + 1 := by
  intro l
  induction l with
  | nil => intro i a; simp
  | cons x xs ih =>
    intro i a
    cases i with
    | zero =>
      rw [List.set_cons_zero, List.countP_cons, List.countP_cons]
      by_cases h1 : p a <;> by_cases h2 : p x <;> simp [h1, h2] <;> omega
    | succ j =>
      rw [List.set_cons_succ, List.countP_cons, List.countP_cons]
      have := ih j a
      by_cases h2 : p x <;> simp [h2] <;> omega

theorem fillShards_countP (n : Nat) :
    ∀ (sel : List (Nat × List F257)) (sh sh' : List (Option (List F257))),
      fillShards n sel sh = Except.ok sh' →
      sh'.countP (fun o => o.isSome) ≤
        sh.countP (fun o => o.isSome) + sel.length := by
  intro sel
  induction sel with
  | nil =>
    intro sh sh' h
    rw [fillShards] at h
    have heq : sh = sh' := Except.ok.inj h
    subst heq
    simp
  | cons q rest ih =>
    intro sh sh' h
    obtain ⟨bi, d⟩ := q
    rw [fillShards] at h
    by_cases hbi : n ≤ bi
    · rw [if_pos hbi] at h
      exact absurd h (by simp)
    · rw [if_neg hbi] at h
      have h1 := ih (sh.set bi (some d)) sh' h
      have h2 := countP_set_le (fun o => o.isSome) sh bi (some d)
      simp only [List.length_cons]
      omega

theorem fillShards_ok (n : Nat) (blockFn : Nat → List F257) :
    ∀ (sel : List (Nat × List F257)) (sh : List (Option (List F257))),
      (∀ q ∈ sel, q.1 < n ∧ q.2 = blockFn q.1) → sh.length = n →
      ∃ sh', fillShards n sel sh = Except.ok sh' ∧ sh'.length = n ∧
        ∀ idx, sh'.getD idx none =
          (if idx ∈ sel.map Prod.fst then some (blockFn idx)
           else sh.getD idx none) := by
  intro sel
  induction sel with
  | nil =>
    intro sh _ hlen
    refine ⟨sh, rfl, hlen, ?_⟩
    intro idx
    simp
  | cons q rest ih =>
    intro sh hq hlen
    obtain ⟨bi, d⟩ := q
    have hbi : bi < n ∧ d = blockFn bi := hq (bi, d) (List.mem_cons_self _ _)
    obtain ⟨sh', hfill, hlen', hget⟩ := ih (sh.set bi (some d))
      (fun q2 hq2 => hq q2 (List.mem_cons_of_mem _ hq2))
      (by rw [List.length_set]; exact hlen)
    refine ⟨sh', ?_, hlen', ?_⟩
    · rw [fillShards, if_neg (by omega)]
      exact hfill
    · intro idx
      rw [hget idx]
      simp only [List.map_cons, List.mem_cons]
      by_cases hidx : idx ∈ rest.map Prod.fst
      · rw [if_pos hidx, if_pos (Or.inr hidx)]
      · rw [if_neg hidx]
        by_cases heq : idx = bi
        · subst heq
          rw [if_pos (Or.inl rfl)]
          rw [List.getD_eq_getElem?_getD,
            List.getElem?_set_self (by omega), hbi.2]
          rfl
        · rw [if_neg (by
            intro hc
            rcases hc with hc | hc
            · exact heq hc
            · exact hidx hc)]
          rw [List.getD_eq_getElem?_getD, List.getElem?_set_ne
            (fun hc => heq hc.symm), List.getD_eq_getElem?_getD]

theorem filter_range_isSome_length {α : Type} :
    ∀ (l : List (Option α)),
      ((List.range l.length).filter
        (fun i => (l.getD i none).isSome)).length =
        l.countP (fun o => o.isSome) := by
  intro l
  induction l with
  | nil => rfl
  | cons x xs ih =>
    simp only [List.length_cons, List.range_succ_eq_map, List.filter_cons,
      List.filter_map, List.countP_cons]
    have hcomp : ((fun i => (((x :: xs).getD i none).isSome)) ∘ Nat.succ) =
        (fun i => ((xs.getD i none).isSome)) := by
      funext i
      rfl
    rw [hcomp]
    cases hx : x.isSome with
    | true =>
      have h0 : (((x :: xs).getD 0 none).isSome = true) := hx
      rw [if_pos h0, List.length_cons, List.length_map, ih]
      simp
    | false =>
      have h0 : ¬ (((x :: xs).getD 0 none).isSome = true) := by
        rw [show ((x :: xs).getD 0 none).isSome = x.isSome from rfl, hx]
        simp
      rw [if_neg h0, List.length_map, ih]
      simp

theorem map_range_getD {α : Type} (d : α) :
    ∀ (l : List α), (List.range l.length).map (fun p => l.getD p d) = l := by
  intro l
  induction l with
  | nil => rfl
  | cons x xs ih =>
    rw [List.length_cons, List.range_succ_eq_map, List.map_cons,
      List.map_map]
    have hcomp : ((fun p => (x :: xs).getD p d) ∘ Nat.succ) =
        (fun p => xs.getD p d) := by
      funext p
      rfl
    rw [hcomp, ih]
    rfl

theorem map_range_getD_take {α : Type} (d : α) (B : Nat) (l : List α)
    (hB : B ≤ l.length) :
    (List.range B).map (fun p => l.getD p d) = l.take B := by
  have h1 : (l.take B).length = B := by rw [List.length_take]; omega
  have h2 := map_range_getD d (l.take B)
  rw [h1] at h2
  rw [← h2]
  apply List.map_congr_left
  intro p hp
  rw [List.mem_range] at hp
  rw [List.getD_eq_getElem _ _ (by omega),
    List.getD_eq_getElem _ _ (by rw [h1]; omega), List.getElem_take]

theorem getD_drop {α : Type} (d : α) (l : List α) (m p : Nat) :
    (l.drop m).getD p d = l.getD (m + p) d := by
  rw [List.getD_eq_getElem?_getD, List.getD_eq_getElem?_getD,
    List.getElem?_drop]

theorem flatMap_congr_mem {α β : Type} :
    ∀ (l : List α) (f g : α → List β), (∀ a ∈ l, f a = g a) →
      l.flatMap f = l.flatMap g := by
  intro l
  induction l with
  | nil => intro f g _; rfl
  | cons x xs ih =>
    intro f g h
    rw [List.flatMap_cons, List.flatMap_cons, h x (List.mem_cons_self _ _),
      ih f g (fun a ha => h a (List.mem_cons_of_mem _ ha))]

theorem flatMap_range_getD {α : Type} (d : α) (B : Nat) :
    ∀ (k : Nat) (l : List α), l.length = k * B →
      (List.range k).flatMap (fun j =>
        (List.range B).map (fun p => l.getD (j * B + p) d)) = l := by
  intro k
  induction k with
  | zero =>
    intro l hl
    have hnil : l = [] := List.eq_nil_of_length_eq_zero (by omega)
    subst hnil
    rfl
  | succ k ih =>
    intro l hl
    have hsplit : (k + 1) * B = k * B + B := by ring
    rw [List.range_succ_eq_map, List.flatMap_cons, List.flatMap_map]
    show ((List.range B).map (fun p => l.getD (0 * B + p) d)) ++
      (List.range k).flatMap (fun a =>
        (List.range B).map (fun p => l.getD (Nat.succ a * B + p) d)) = l
    have htail : (List.range k).flatMap (fun a =>
        (List.range B).map (fun p => l.getD (Nat.succ a * B + p) d)) =
        l.drop B := by
      have hfun : ∀ a ∈ List.range k,
          (List.range B).map (fun p => l.getD (Nat.succ a * B + p) d) =
          (List.range B).map (fun p => (l.drop B).getD (a * B + p) d) := by
        intro a _
        apply List.map_congr_left
        intro p _
        rw [getD_drop, Nat.succ_mul]
        congr 1
        omega
      rw [flatMap_congr_mem _ _ _ hfun,
        ih (l.drop B) (by rw [List.length_drop]; omega)]
    have hhead : (List.range B).map (fun p => l.getD (0 * B + p) d) =
        l.take B := by
      rw [← map_range_getD_take d B l (by omega)]
      apply List.map_congr_left
      intro p _
      rw [Nat.zero_mul, Nat.zero_add]
    rw [htail, hhead, List.take_append_drop]

theorem dropWhile_replicate_append {α : Type} (p : α → Bool) (a : α)
    (ha : p a = true) :
    ∀ (m : Nat) (t : List α),
      (List.replicate m a ++ t).dropWhile p = t.dropWhile p := by
  intro m
  induction m with
  | zero => intro t; rfl
  | succ mm ih =>
    intro t
    rw [List.replicate_succ, List.cons_append,
      List.dropWhile_cons_of_pos ha]
    exact ih t

theorem dropWhile_eq_self_of_all_neg {α : Type} (p : α → Bool)
    (t : List α) (h : ∀ y ∈ t, p y = false) : t.dropWhile p = t := by
  cases t with
  | nil => rfl
  | cons x xs =>
    exact List.dropWhile_cons_of_neg
      (by rw [h x (List.mem_cons_self _ _)]; simp)

theorem padSym_eq_cast : padSym = ((256 : Nat) : F257) := by
  rw [padSym]
  norm_num

theorem cast_ne_padSym (b : Nat) (hb : b < 256) :
    (((b : F257)) == padSym) = false := by
  rw [beq_eq_false_iff_ne]
  intro hc
  rw [padSym_eq_cast] at hc
  have := cast_inj_lt b 256 (by omega) (by norm_num) hc
  omega

/-- Stripping trailing padding symbols from padded plaintext recovers the
plaintext bytes, since no byte below 256 maps to the padding symbol. -/
theorem strip_pad (data : List Nat) (m : Nat)
    (hdata : ∀ b ∈ data, b < 256) :
    ((((data.map (fun b : Nat => (b : F257))) ++
        List.replicate m padSym).reverse.dropWhile
          (fun y => y == padSym)).reverse).map (fun y => y.val) = data := by
  rw [List.reverse_append, List.reverse_replicate,
    dropWhile_replicate_append _ _ (by simp) m _,
    dropWhile_eq_self_of_all_neg _ _ (by
      intro y hy
      rw [List.mem_reverse, List.mem_map] at hy
      obtain ⟨b, hb, hcast⟩ := hy
      rw [← hcast]
      exact cast_ne_padSym b (hdata b hb)),
    List.reverse_reverse, List.map_map]
  have hid : ∀ b ∈ data, (ZMod.val ∘ fun b : Nat => (b : F257)) b = b := by
    intro b hb
    have := val_cast_lt b (by have := hdata b hb; omega)
    simpa using this
  rw [List.map_congr_left hid]
  simp

/-- Filtering `range N` by membership in a duplicate-free list of indices
below `N` yields a list of the same length. -/
theorem filter_range_mem_length (N : Nat) (sel : List Nat)
    (hnd : sel.Nodup) (hsub : ∀ i ∈ sel, i < N) :
    ((List.range N).filter (fun i => decide (i ∈ sel))).length =
      sel.length := by
  have hperm : List.Perm
      ((List.range N).filter (fun i => decide (i ∈ sel))) sel := by
    apply (List.perm_ext_iff_of_nodup
      (List.Nodup.filter _ (List.nodup_range N)) hnd).mpr
    intro a
    rw [List.mem_filter, List.mem_range, decide_eq_true_eq]
    constructor
    · exact fun h => h.2
    · exact fun h => ⟨hsub a h, h⟩
  exact hperm.length_eq

/-- Central reconstruction lemma: decoding a shard array that carries the
encoded blocks exactly on a duplicate-free set of at least K indices below
N returns the original plaintext. -/
theorem decode_encode (e : Encoder) (data : List Nat) (selIdx : List Nat)
    (shards : List (Option (List F257)))
    (hk : 1 ≤ e.data_shards) (hkn : e.data_shards ≤ e.total_shards)
    (h257 : e.total_shards ≤ 257)
    (hdata : ∀ b ∈ data, b < 256)
    (hsel : ∀ i ∈ selIdx, i < e.total_shards)
    (hnd : selIdx.Nodup)
    (hlen : e.data_shards ≤ selIdx.length)
    (hsh : ∀ idx, shards.getD idx none =
      if idx ∈ selIdx then some ((e.encode data).getD idx []) else none) :
    e.decode shards = Except.ok data := by
  have hK257 : e.data_shards ≤ 257 := le_trans hkn h257
  have havail : (List.range e.total_shards).filter
      (fun i => (shards.getD i none).isSome) =
      (List.range e.total_shards).filter (fun i => decide (i ∈ selIdx)) := by
    apply List.filter_congr
    intro i _
    rw [hsh i]
    by_cases hi : i ∈ selIdx
    · rw [if_pos hi, decide_eq_true hi]
      rfl
    · rw [if_neg hi, decide_eq_false hi]
      rfl
  have hlenR : ((List.range e.total_shards).filter
      (fun i => decide (i ∈ selIdx))).length = selIdx.length :=
    filter_range_mem_length e.total_shards selIdx hnd hsel
  have hmemR : ∀ i ∈ (List.range e.total_shards).filter
      (fun i => decide (i ∈ selIdx)), i ∈ selIdx ∧ i < e.total_shards := by
    intro i hi
    rw [List.mem_filter, List.mem_range, decide_eq_true_eq] at hi
    exact ⟨hi.2, hi.1⟩
  have hndR : ((List.range e.total_shards).filter
      (fun i => decide (i ∈ selIdx))).Nodup :=
    List.Nodup.filter _ (List.nodup_range _)
  have hhdmem : ((List.range e.total_shards).filter
      (fun i => decide (i ∈ selIdx))).headD 0 ∈
      (List.range e.total_shards).filter (fun i => decide (i ∈ selIdx)) := by
    cases hc : (List.range e.total_shards).filter
        (fun i => decide (i ∈ selIdx)) with
    | nil =>
      rw [hc] at hlenR
      simp only [List.length_nil] at hlenR
      omega
    | cons a t =>
      rw [List.headD_cons]
      exact List.mem_cons_self _ _
  have hhdsel := hmemR _ hhdmem
  have hB : ((shards.getD (((List.range e.total_shards).filter
      (fun i => decide (i ∈ selIdx))).headD 0) none).getD []).length =
      e.block_size data.length := by
    rw [hsh, if_pos hhdsel.1, Option.getD_some,
      encode_block_length e data _ hhdsel.2]
  have hchmem : ∀ i ∈ ((List.range e.total_shards).filter
      (fun i => decide (i ∈ selIdx))).take e.data_shards,
      i ∈ selIdx ∧ i < e.total_shards :=
    fun i hi => hmemR i (List.mem_of_mem_take hi)
  have hchlen : (((List.range e.total_shards).filter
      (fun i => decide (i ∈ selIdx))).take e.data_shards).length =
      e.data_shards := by
    rw [List.length_take, hlenR]
    omega
  have hchnd : (((List.range e.total_shards).filter
      (fun i => decide (i ∈ selIdx))).take e.data_shards).Nodup :=
    List.Nodup.sublist (List.take_sublist _ _) hndR
  have hmapnd : ((((List.range e.total_shards).filter
      (fun i => decide (i ∈ selIdx))).take e.data_shards).map
      (fun i : Nat => (i : F257))).Nodup := by
    apply List.Nodup.map_on ?inj hchnd
    case inj =>
    intro x hx y hy hxy
    exact cast_inj_lt x y (by have := (hchmem x hx).2; omega)
      (by have := (hchmem y hy).2; omega) hxy
  have hcard : (((((List.range e.total_shards).filter
      (fun i => decide (i ∈ selIdx))).take e.data_shards).map
      (fun i : Nat => (i : F257))).toFinset).card = e.data_shards := by
    rw [List.toFinset_card_of_nodup hmapnd, List.length_map, hchlen]
  have hinterp : ∀ j p : Nat, j < e.data_shards →
      p < e.block_size data.length →
      linterpEval (((((List.range e.total_shards).filter
          (fun i => decide (i ∈ selIdx))).take e.data_shards).map
          (fun i : Nat => (i : F257))).toFinset)
        (fun x => ((shards.getD x.val none).getD []).getD p 0)
        ((j : Nat) : F257) =
      (e.padded data).getD (j * e.block_size data.length + p) 0 := by
    intro j p hj hp
    rw [linterpEval_eq]
    have hPQ : Lagrange.interpolate e.dataNodes id (e.shardValue data p) =
        Lagrange.interpolate (((((List.range e.total_shards).filter
            (fun i => decide (i ∈ selIdx))).take e.data_shards).map
            (fun i : Nat => (i : F257))).toFinset) id
          (fun x => ((shards.getD x.val none).getD []).getD p 0) := by
      apply Lagrange.eq_interpolate_of_eval_eq
      · exact Function.injective_id.injOn
      · rw [hcard]
        exact degree_interp_lt e data p hK257
      · intro x hx
        simp only [id_eq]
        rw [List.mem_toFinset, List.mem_map] at hx
        obtain ⟨i, hi, hix⟩ := hx
        obtain ⟨hisel, hiN⟩ := hchmem i hi
        subst hix
        rw [val_cast_lt i (by omega), hsh i, if_pos hisel, Option.getD_some,
          encode_block_getD e data i p hiN hp, linterpEval_eq]
    rw [← hPQ]
    exact eval_interp_at_data e data p j hj hK257
  have hsymb : (List.range e.data_shards).flatMap (fun j =>
      (List.range (e.block_size data.length)).map (fun p =>
        linterpEval (((((List.range e.total_shards).filter
            (fun i => decide (i ∈ selIdx))).take e.data_shards).map
            (fun i : Nat => (i : F257))).toFinset)
          (fun x => ((shards.getD x.val none).getD []).getD p 0)
          ((j : Nat) : F257))) = e.padded data := by
    have hfun : ∀ j ∈ List.range e.data_shards,
        (List.range (e.block_size data.length)).map (fun p =>
          linterpEval (((((List.range e.total_shards).filter
              (fun i => decide (i ∈ selIdx))).take e.data_shards).map
              (fun i : Nat => (i : F257))).toFinset)
            (fun x => ((shards.getD x.val none).getD []).getD p 0)
            ((j : Nat) : F257)) =
        (List.range (e.block_size data.length)).map (fun p =>
          (e.padded data).getD (j * e.block_size data.length + p) 0) := by
      intro j hj
      rw [List.mem_range] at hj
      apply List.map_congr_left
      intro p hp
      rw [List.mem_range] at hp
      exact hinterp j p hj hp
    rw [flatMap_congr_mem _ _ _ hfun]
    exact flatMap_range_getD (0 : F257) (e.block_size data.length)
      e.data_shards (e.padded data) (padded_length e data hk)
  rw [Encoder.decode]
  simp only [havail]
  rw [if_neg (by rw [hlenR]; omega), hB, hsymb, Encoder.padded,
    strip_pad data _ hdata]

theorem fillShards_length (n : Nat) :
    ∀ (sel : List (Nat × List F257)) (sh sh' : List (Option (List F257))),
      fillShards n sel sh = Except.ok sh' → sh'.length = sh.length := by
  intro sel
  induction sel with
  | nil =>
    intro sh sh' h
    rw [fillShards] at h
    rw [← Except.ok.inj h]
  | cons q rest ih =>
    intro sh sh' h
    obtain ⟨bi, d⟩ := q
    rw [fillShards] at h
    by_cases hbi : n ≤ bi
    · rw [if_pos hbi] at h
      exact absurd h (by simp)
    · rw [if_neg hbi] at h
      have := ih _ _ h
      rwa [List.length_set] at this

/-- With fewer available shards than data shards, decode reports the
stripe unrecoverable. -/
theorem decode_too_few (e : Encoder) (shards : List (Option (List F257)))
    (h : ((List.range e.total_shards).filter
      (fun i => (shards.getD i none).isSome)).length < e.data_shards) :
    e.decode shards = Except.error (Error.stripeUnrecoverable
      ((List.range e.total_shards).filter
        (fun i => (shards.getD i none).isSome)).length e.data_shards) := by
  rw [Encoder.decode]
  exact if_pos h

/-- Reconstruction from fewer blocks than data shards always fails. -/
theorem reconstruct_too_few (m : StripeManager)
    (blocks : List (Nat × List F257))
    (hfew : blocks.length < m.encoder.data_shards) :
    ∃ err, m.reconstruct blocks = Except.error err := by
  rw [StripeManager.reconstruct]
  cases hfill : fillShards m.encoder.total_shards blocks
      (List.replicate m.encoder.total_shards none) with
  | error e2 => exact ⟨e2, rfl⟩
  | ok shards =>
    have hcount := fillShards_countP m.encoder.total_shards blocks _ _ hfill
    have hz : (List.replicate m.encoder.total_shards
        (none : Option (List F257))).countP (fun o => o.isSome) = 0 := by
      rw [List.countP_eq_zero]
      intro a ha
      rw [List.eq_of_mem_replicate ha]
      simp
    have hlen : shards.length = m.encoder.total_shards := by
      rw [fillShards_length m.encoder.total_shards blocks _ _ hfill,
        List.length_replicate]
    refine ⟨_, decode_too_few m.encoder shards ?_⟩
    rw [← hlen, filter_range_isSome_length]
    omega

/-- Reconstruction succeeds from any duplicate-free selection of at least
K correctly indexed encoded blocks. -/
theorem reconstruct_ok (m : StripeManager) (data : List Nat)
    (sel : List (Nat × List F257))
    (hk : 1 ≤ m.encoder.data_shards)
    (hkn : m.encoder.data_shards ≤ m.encoder.total_shards)
    (h257 : m.encoder.total_shards ≤ 257)
    (hdata : ∀ b ∈ data, b < 256)
    (hq : ∀ q ∈ sel, q.1 < m.encoder.total_shards ∧
      q.2 = (m.encoder.encode data).getD q.1 [])
    (hnd : (sel.map Prod.fst).Nodup)
    (hlen : m.encoder.data_shards ≤ sel.length) :
    m.reconstruct sel = Except.ok data := by
  obtain ⟨sh', hfill, hlen', hget⟩ := fillShards_ok m.encoder.total_shards
    (fun i => (m.encoder.encode data).getD i []) sel
    (List.replicate m.encoder.total_shards none) hq (by simp)
  rw [StripeManager.reconstruct, hfill]
  apply decode_encode m.encoder data (sel.map Prod.fst) sh' hk hkn h257 hdata
  · intro i hi
    rw [List.mem_map] at hi
    obtain ⟨q, hqm, hq1⟩ := hi
    rw [← hq1]
    exact (hq q hqm).1
  · exact hnd
  · rw [List.length_map]
    exact hlen
  · intro idx
    rw [hget idx]
    by_cases hidx : idx ∈ sel.map Prod.fst
    · rw [if_pos hidx, if_pos hidx]
    · rw [if_neg hidx, if_neg hidx, List.getD_eq_getElem?_getD,
        List.getElem?_replicate]
      by_cases hlt : idx < m.encoder.total_shards
      · rw [if_pos hlt]
        rfl
      · rw [if_neg hlt]
        rfl

/-- C1: for every plaintext of bytes and every stripe produced by
`StripeManager::create_stripe` with K data shards and N total shards,
`StripeManager::reconstruct` applied to any duplicate-free selection of at
least K of the stripe's (block_index, block_data) pairs returns exactly
the original plaintext, and `reconstruct` applied to fewer than K blocks
returns an error. -/
theorem stripe_roundtrip_c1 (k n a : Nat) (m : StripeManager)
    (data : List Nat) (cid : String) (si : Nat)
    (hm : StripeManager.new k n a = some m)
    (hdata : ∀ b ∈ data, b < 256)
    (sel : List (Nat × List F257))
    (hsel : ∀ q ∈ sel, q.1 < n ∧
      q.2 = (m.create_stripe cid data si).blocks.getD q.1 [])
    (hnd : (sel.map Prod.fst).Nodup)
    (hlen : k ≤ sel.length)
    (few : List (Nat × List F257)) (hfew : few.length < k) :
    m.reconstruct sel = Except.ok data ∧
      ∃ err, m.reconstruct few = Except.error err := by
  obtain ⟨hek, hen, _, hk1, hkn, hn257, _, _⟩ :=
    stripe_manager_new_shape k n a m hm
  constructor
  · apply reconstruct_ok m data sel (by omega) (by omega) (by omega) hdata
    · intro q hq
      have h := hsel q hq
      simp only [StripeManager.create_stripe] at h
      exact ⟨by omega, h.2⟩
    · exact hnd
    · omega
  · exact reconstruct_too_few m few (by omega)

/-- Witness for C1 at a concrete input: K=2, N=3, plaintext [1, 2, 3];
blocks 0 and 2 of the stripe suffice to reconstruct it, while a single
block does not. -/
theorem stripe_roundtrip_c1_witness :
    StripeManager.reconstruct ⟨⟨2, 3⟩, 3⟩
      [(0, ((StripeManager.create_stripe ⟨⟨2, 3⟩, 3⟩ "c" [1, 2, 3]
          0).blocks.getD 0 [])),
       (2, ((StripeManager.create_stripe ⟨⟨2, 3⟩, 3⟩ "c" [1, 2, 3]
          0).blocks.getD 2 []))] = Except.ok [1, 2, 3] ∧
    ∃ err, StripeManager.reconstruct ⟨⟨2, 3⟩, 3⟩ [(1, [])] =
      Except.error err :=
  stripe_roundtrip_c1 2 3 3 ⟨⟨2, 3⟩, 3⟩ [1, 2, 3] "c" 0 (by decide)
    (by decide) _ (by decide) (by decide) (by decide) [(1, [])] (by decide)

end TgCryptFs
